import Mathlib

/-!
# Verification of the epic-executor core

Shallow embedding of the dependency scheduler (`scheduler.py`), the bounded
concurrency execution pool (`pool.py`), the execution ledger (`status.py`) and
the dependency extraction of the task parser (`parser.py`), together with
proofs and refutations of the specified properties.

Conventions of the embedding:
- Python `int` is `Int`; Python sets of ints are `Finset Int`.
- Python dicts are association lists with dict semantics (last write wins for
  lookups built by comprehension; insertion order preserved for iteration).
- Python exceptions are modelled by `Except` with an explicit exception kind.
- The `while queue` loop of Kahn's algorithm is given explicit fuel
  `tasks.length + 1`; the invariant proofs below show a level is only ever
  produced from unseen task numbers, hence the fuel is never exhausted on the
  runs the theorems speak about (the returned flag records exhaustion).
-/

set_option maxHeartbeats 1000000

namespace EpicExecutor

/-! ## parser.py -/

/-- A Python value as it can appear in parsed YAML frontmatter.  Floats are
represented by whether `value.is_integer()` holds and, if so, by `int(value)`;
`boolean` is kept separate because `isinstance(True, int)` holds in Python and
`int(True) = 1`. -/
inductive PyVal where
  | int (i : Int)
  | boolean (b : Bool)
  | floatIntegral (i : Int)
  | floatFrac
  | str (s : String)
  | list (xs : List PyVal)
  | pynone
  | other

/-- Python `int(s)` on a string: strips whitespace, accepts an optional sign
followed by at least one decimal digit.  (Digit-group underscores accepted by
Python are not modelled; no claim depends on them.) -/
def pyIntOfString (s : String) : Option Int :=
  let cs := (s.toList.dropWhile (fun c => c.isWhitespace)).reverse
  let cs2 := (cs.dropWhile (fun c => c.isWhitespace)).reverse
  match cs2 with
  | [] => Option.none
  | c :: rest =>
    let sd : Bool × List Char :=
      if c = '-' then (true, rest)
      else if c = '+' then (false, rest)
      else (false, c :: rest)
    if sd.2.isEmpty ∨ ¬ (sd.2.all Char.isDigit = true) then Option.none
    else
      let n : Nat := sd.2.foldl (fun acc ch => acc * 10 + (ch.toNat - 48)) 0
      some (if sd.1 then -(n : Int) else (n : Int))

/-- `_to_int` of parser.py: ints (including bools) pass through, integral
floats are truncated, strings are parsed, everything else is `None`. -/
def _to_int : PyVal → Option Int
  | .int i => some i
  | .boolean b => some (if b then 1 else 0)
  | .floatIntegral i => some i
  | .str s => pyIntOfString s
  | _ => none

/-- Lookup in a parsed frontmatter mapping. -/
def fmGet (fm : List (String × PyVal)) (k : String) : Option PyVal :=
  (fm.find? (fun p => p.1 == k)).map (fun p => p.2)

/-- The raw `depends_on` values: absent key yields no values, a single value is
wrapped into a one-element list (`if not isinstance(depends_on, list)`). -/
def declaredDependsOn (fm : List (String × PyVal)) : List PyVal :=
  match fmGet fm "depends_on" with
  | Option.none => []
  | some (.list xs) => xs
  | some v => [v]

/-- `extract_dependencies` of parser.py: convert each declared value with
`_to_int` into a set, discard the task's own number, return the sorted list. -/
def extract_dependencies (fm : List (String × PyVal)) (self_task_num : Int) : List Int :=
  let deps : Finset Int :=
    (declaredDependsOn fm).foldl
      (fun s d => match _to_int d with
        | some i => insert i s
        | Option.none => s) ∅
  (deps.erase self_task_num).sort (· ≤ ·)

/-! ## scheduler.py -/

/-- A parsed task, restricted to the fields the scheduler and the pool read
(`number` and `dependencies`); the remaining `TaskDefinition` fields of
parser.py are opaque payload for the executor and no claim mentions them. -/
structure TaskDefinition where
  number : Int
  dependencies : List Int
deriving DecidableEq, Repr

/-- `ExecutionPlan` of scheduler.py; `dependency_map` is the dict as an
association list in comprehension order. -/
structure ExecutionPlan where
  levels : List (List Int)
  task_order : List Int
  dependency_map : List (Int × List Int)
deriving DecidableEq, Repr

/-- Decidable equality for `Except`, used to evaluate concrete runs of
`create_execution_plan`. -/
instance {e a : Type} [DecidableEq e] [DecidableEq a] : DecidableEq (Except e a) :=
  fun x y =>
    match x, y with
    | .error x1, .error y1 =>
      if h : x1 = y1 then isTrue (h ▸ rfl)
      else isFalse (fun hc => h (Except.error.inj hc))
    | .ok x1, .ok y1 =>
      if h : x1 = y1 then isTrue (h ▸ rfl)
      else isFalse (fun hc => h (Except.ok.inj hc))
    | .error _, .ok _ => isFalse (fun hc => Except.noConfusion hc)
    | .ok _, .error _ => isFalse (fun hc => Except.noConfusion hc)

/-- `build_dependency_graph(tasks).get(d, [])`: one entry `t.number` per
occurrence of `d` in `t.dependencies`, in task-list order. -/
def build_dependency_graph (tasks : List TaskDefinition) (d : Int) : List Int :=
  (tasks.map (fun t => (t.dependencies.filter (fun x => x == d)).map (fun _ => t.number))).flatten

/-- `build_in_degree(tasks, pre_completed)[n]`: the number of dependencies of
the task numbered `n` that are not pre-completed.  Duplicate task numbers
follow dict semantics (the last task wins), hence the reversed search. -/
def build_in_degree (tasks : List TaskDefinition) (pre : Finset Int) (n : Int) : Int :=
  match tasks.reverse.find? (fun t => t.number == n) with
  | some t => ((t.dependencies.filter (fun d => decide (d ∉ pre))).length : Int)
  | Option.none => 0

/-- Keys of a dict built by successive insertion, in first-insertion order. -/
def dictKeys (l : List Int) : List Int :=
  l.foldl (fun acc n => if n ∈ acc then acc else acc ++ [n]) []

/-- One decrement of the Kahn loop: `in_degree[m] -= 1`, and `m` joins the
next queue exactly when its degree reaches zero. -/
def decStep (p : (Int → Int) × List Int) (m : Int) : (Int → Int) × List Int :=
  let v := p.1 m - 1
  (fun k => if k = m then v else p.1 k, if v = 0 then p.2 ++ [m] else p.2)

/-- Processing one level: for each task of the level, decrement all its
dependents (the inner two `for` loops of `create_execution_plan`). -/
def processLevel (graph : Int → List Int) (level : List Int) (deg : Int → Int) :
    (Int → Int) × List Int :=
  level.foldl (fun p n => (graph n).foldl decStep p) (deg, [])

/-- The `while queue` loop of `create_execution_plan`.  Returns the levels, the
flat order, and whether the queue was exhausted (fuel sufficiency is proved,
not assumed). -/
def kahnLoop (graph : Int → List Int) :
    Nat → List Int → (Int → Int) → List (List Int) → List Int →
    List (List Int) × List Int × Bool
  | 0, queue, _, levels, order => (levels, order, queue.isEmpty)
  | _ + 1, [], _, levels, order => (levels, order, true)
  | fuel + 1, q :: qs, deg, levels, order =>
    let p := processLevel graph (q :: qs) deg
    kahnLoop graph fuel p.2 p.1 (levels ++ [q :: qs]) (order ++ (q :: qs))

/-- `create_execution_plan` of scheduler.py.  A raised
`ValueError("Circular dependency detected involving tasks: ...")` is modelled
as `Except.error` carrying the `missing` set. -/
def create_execution_plan (tasks : List TaskDefinition) (pre : Finset Int) :
    Except (Finset Int) ExecutionPlan :=
  if tasks.isEmpty then .ok ⟨[], [], []⟩
  else
    let graph := build_dependency_graph tasks
    let deg := build_in_degree tasks pre
    let seeds := (dictKeys (tasks.map (fun t => t.number))).filter (fun n => deg n == 0)
    let r := kahnLoop graph (tasks.length + 1) seeds deg [] []
    if r.2.1.length ≠ tasks.length then
      .error ((tasks.map (fun t => t.number)).toFinset \ r.2.1.toFinset)
    else
      .ok ⟨r.1, r.2.1, tasks.map (fun t => (t.number, t.dependencies))⟩

/-- `plan.dependency_map.get(task_num, [])` with dict semantics. -/
def lookupDeps (m : List (Int × List Int)) (n : Int) : List Int :=
  match m.reverse.find? (fun p => p.1 == n) with
  | some p => p.2
  | Option.none => []

/-- `get_ready_tasks` of scheduler.py: tasks of `task_order` that are neither
completed nor in progress and whose mapped dependencies are all completed.
The failed set is not consulted. -/
def get_ready_tasks (plan : ExecutionPlan) (completed in_progress : Finset Int) : List Int :=
  plan.task_order.filter fun t =>
    if t ∈ completed ∨ t ∈ in_progress then false
    else (lookupDeps plan.dependency_map t).all fun d => decide (d ∈ completed)

/-! ## pool.py

`run_pool` is an async control loop.  Its state between loop iterations is the
`PoolStatus` (completed / failed / in-progress sets) plus the pending asyncio
tasks; the code adds a task number to `status.in_progress` exactly when it
creates the corresponding asyncio task and removes both together, so the
pending set always carries exactly the numbers of `in_progress` and
`len(pending_tasks)` = `in_progress.card`.  The ghost field `dispatched`
counts how often each task number was dispatched (`asyncio.create_task`).
The executor is an oracle `execSuccess : Int → Bool` giving the success
verdict per task number; an exception inside `execute_task` (including the
`task_map` KeyError for a number without a task) is classified as failure by
the `except` branch of the completion handler, exactly like a `False` verdict.
`asyncio.wait(..., FIRST_COMPLETED)` finishes some nonempty subset of the
in-flight tasks, which is the only nondeterminism of the loop. -/

structure PoolCfg where
  tasks : List TaskDefinition
  plan : ExecutionPlan
  execSuccess : Int → Bool
  maxConcurrent : Nat
  preCompleted : Finset Int

structure PoolState where
  completed : Finset Int
  failed : Finset Int
  inProgress : Finset Int
  dispatched : Int → Nat

/-- `task_nums_to_run`. -/
def PoolCfg.taskNums (cfg : PoolCfg) : Finset Int :=
  (cfg.tasks.map (fun t => t.number)).toFinset

/-- The `PoolStatus()` at entry, with `pre_completed` merged into `completed`. -/
def initState (cfg : PoolCfg) : PoolState :=
  ⟨cfg.preCompleted, ∅, ∅, fun _ => 0⟩

/-- `tasks_done()` of run_pool. -/
def tasksDone (cfg : PoolCfg) (s : PoolState) : Nat :=
  (s.completed ∩ cfg.taskNums).card + (s.failed ∩ cfg.taskNums).card

/-- The ready list computed at the top of each iteration. -/
def readyList (cfg : PoolCfg) (s : PoolState) : List Int :=
  get_ready_tasks cfg.plan s.completed s.inProgress

/-- Admission of a single ready task: `if task_num not in status.in_progress
and len(pending_tasks) < max_concurrent`. -/
def admitOne (cfg : PoolCfg) (s : PoolState) (n : Int) : PoolState :=
  if n ∉ s.inProgress ∧ s.inProgress.card < cfg.maxConcurrent then
    { s with inProgress := insert n s.inProgress,
             dispatched := fun k => if k = n then s.dispatched n + 1 else s.dispatched k }
  else s

/-- The `for task_num in ready` admission loop. -/
def admitAll (cfg : PoolCfg) (s : PoolState) : PoolState :=
  (readyList cfg s).foldl (admitOne cfg) s

/-- Success verdict of one finished `execute_task`: the executor's verdict for
a real task, and failure (exception path) for a number outside `task_map`. -/
def taskSuccess (cfg : PoolCfg) (n : Int) : Bool :=
  if n ∈ cfg.taskNums then cfg.execSuccess n else false

/-- Processing of the `done` set returned by `asyncio.wait`. -/
def completeSet (cfg : PoolCfg) (s : PoolState) (D : Finset Int) : PoolState :=
  { s with
      inProgress := s.inProgress \ D,
      completed := s.completed ∪ D.filter (fun n => taskSuccess cfg n = true),
      failed := s.failed ∪ D.filter (fun n => taskSuccess cfg n = false) }

/-- One iteration of the `while tasks_done() < len(tasks)` loop.  `wait`:
admission followed by completion of a nonempty subset of the in-flight tasks.
`spin`: the `continue` branch taken when nothing is in flight after admission
but the ready list is nonempty (reachable only with `max_concurrent = 0`). -/
inductive PoolStep (cfg : PoolCfg) : PoolState → PoolState → Prop
  | wait (s : PoolState) (D : Finset Int)
      (hguard : tasksDone cfg s < cfg.tasks.length)
      (hne : D.Nonempty) (hsub : D ⊆ (admitAll cfg s).inProgress) :
      PoolStep cfg s (completeSet cfg (admitAll cfg s) D)
  | spin (s : PoolState)
      (hguard : tasksDone cfg s < cfg.tasks.length)
      (hempty : (admitAll cfg s).inProgress = ∅)
      (hready : readyList cfg s ≠ []) :
      PoolStep cfg s (admitAll cfg s)

/-- States the control loop can be in at the top of an iteration. -/
def PoolReaches (cfg : PoolCfg) (s : PoolState) : Prop :=
  Relation.ReflTransGen (PoolStep cfg) (initState cfg) s

/-- `run_pool` returns at state `s`: either the loop guard fails, or nothing
is in flight after admission and nothing was ready (the `break`). -/
def PoolTerminal (cfg : PoolCfg) (s : PoolState) : Prop :=
  cfg.tasks.length ≤ tasksDone cfg s ∨
    ((admitAll cfg s).inProgress = ∅ ∧ readyList cfg s = [])

/-! ## status.py -/

/-- A JSON value as returned by `json.loads`. -/
inductive Json where
  | null
  | jbool (b : Bool)
  | num (n : Int)
  | str (s : String)
  | arr (xs : List Json)
  | obj (fields : List (String × Json))

/-- The exception kinds distinguished by `ExecutionStatus.load`.
`json.JSONDecodeError`, `KeyError` and `TypeError` are caught there;
a plain `ValueError` (from `int(task_num_str)`) and an `AttributeError`
(from `.items()` on a non-dict) are not. -/
inductive PyExc where
  | keyError
  | typeError
  | valueError
  | attributeError
deriving DecidableEq, Repr

/-- `TaskStatus` dataclass.  The dataclass performs no runtime type checking,
so every field holds an arbitrary JSON value when built from a loaded
document; the `mark_*` methods store strings. -/
structure TaskStatus where
  task_number : Json
  status : Json
  started_at : Json := Json.null
  completed_at : Json := Json.null
  commit_hash : Json := Json.null
  files_modified : Json := Json.arr []
  error : Json := Json.null

/-- `ExecutionStatus` dataclass. -/
structure ExecutionStatus where
  epic_name : Json
  branch_name : Json
  worktree_path : Json
  started_at : Json
  tasks : List (Int × TaskStatus)
  last_updated : Json

/-- Upsert with dict semantics: overwrite in place, else append. -/
def dictInsert (m : List (Int × TaskStatus)) (k : Int) (v : TaskStatus) :
    List (Int × TaskStatus) :=
  if m.any (fun p => p.1 == k) then
    m.map (fun p => if p.1 == k then (k, v) else p)
  else m ++ [(k, v)]

def lookupTask (m : List (Int × TaskStatus)) (k : Int) : Option TaskStatus :=
  (m.find? (fun p => p.1 == k)).map (fun p => p.2)

/-- The `ExecutionStatus(...)` constructed by `load_or_create_status` when no
prior state is usable (fresh ledger: empty tasks, empty `last_updated`). -/
def newStatus (epic_name branch_name worktree_path now : String) : ExecutionStatus :=
  ⟨Json.str epic_name, Json.str branch_name, Json.str worktree_path,
    Json.str now, [], Json.str ""⟩

/-- The entry defaulted to by every `mark_*` method when absent. -/
def defaultEntry (task_num : Int) : TaskStatus :=
  { task_number := Json.num task_num, status := Json.str "pending" }

/-- `mark_started`: unconditionally sets the status to in_progress. -/
def mark_started (st : ExecutionStatus) (task_num : Int) (now : String) : ExecutionStatus :=
  let cur := (lookupTask st.tasks task_num).getD (defaultEntry task_num)
  let cur := { cur with status := Json.str "in_progress", started_at := Json.str now }
  { st with tasks := dictInsert st.tasks task_num cur }

/-- `mark_completed`; `if files_modified:` and `if commit_hash:` are Python
truthiness tests, so empty lists and empty strings leave the field alone. -/
def mark_completed (st : ExecutionStatus) (task_num : Int)
    (files_modified : Option (List String)) (commit_hash : Option String)
    (now : String) : ExecutionStatus :=
  let cur := (lookupTask st.tasks task_num).getD (defaultEntry task_num)
  let fm := match files_modified with
    | some fs => if fs.isEmpty then cur.files_modified else Json.arr (fs.map Json.str)
    | Option.none => cur.files_modified
  let chv := match commit_hash with
    | some c => if c = "" then cur.commit_hash else Json.str c
    | Option.none => cur.commit_hash
  let cur := { cur with status := Json.str "completed", completed_at := Json.str now,
                        files_modified := fm, commit_hash := chv }
  { st with tasks := dictInsert st.tasks task_num cur }

/-- `mark_failed`; the error text is assigned unconditionally. -/
def mark_failed (st : ExecutionStatus) (task_num : Int) (error : Option String)
    (now : String) : ExecutionStatus :=
  let cur := (lookupTask st.tasks task_num).getD (defaultEntry task_num)
  let errVal := match error with
    | some e => Json.str e
    | Option.none => Json.null
  let cur := { cur with status := Json.str "failed", completed_at := Json.str now,
                        error := errVal }
  { st with tasks := dictInsert st.tasks task_num cur }

/-- A ledger mutation, with the ambient `datetime.now().isoformat()` made an
explicit argument. -/
inductive LedgerOp where
  | started (task_num : Int) (now : String)
  | completedOp (task_num : Int) (files_modified : Option (List String))
      (commit_hash : Option String) (now : String)
  | failedOp (task_num : Int) (error : Option String) (now : String)

def LedgerOp.num : LedgerOp → Int
  | .started n _ => n
  | .completedOp n _ _ _ => n
  | .failedOp n _ _ => n

def applyOp (st : ExecutionStatus) : LedgerOp → ExecutionStatus
  | .started n now => mark_started st n now
  | .completedOp n fs ch now => mark_completed st n fs ch now
  | .failedOp n e now => mark_failed st n e now

def applyOps (st : ExecutionStatus) (ops : List LedgerOp) : ExecutionStatus :=
  ops.foldl applyOp st

/-- The recorded status of a task; a missing entry reads as pending. -/
def statusOf (st : ExecutionStatus) (n : Int) : Json :=
  match lookupTask st.tasks n with
  | some t => t.status
  | Option.none => Json.str "pending"

/-- Rank along the lifecycle pending → in_progress → completed or failed. -/
def statusRank : Json → Nat
  | .str s =>
    if s = "in_progress" then 1
    else if s = "completed" then 2
    else if s = "failed" then 2
    else 0
  | _ => 0

/-- One status value advances to another: the rank never drops, and a
terminal status never changes at all. -/
def advances (a b : Json) : Prop :=
  statusRank a ≤ statusRank b ∧ (statusRank a = 2 → b = a)

/-! ### Loading a persisted ledger -/

/-- Lookup in a JSON object with dict semantics (`json.loads` keeps the last
occurrence of a duplicated key). -/
def jsonGet (fields : List (String × Json)) (k : String) : Option Json :=
  (fields.reverse.find? (fun p => p.1 == k)).map (fun p => p.2)

/-- The entries of the dict `json.loads` builds from a JSON object: first
occurrence position, last occurrence value. -/
def jsonEntries (fields : List (String × Json)) : List (String × Json) :=
  fields.foldl
    (fun m p =>
      if m.any (fun q => q.1 == p.1) then
        m.map (fun q => if q.1 == p.1 then p else q)
      else m ++ [p])
    []

/-- `data[k]` on a parsed document: KeyError on a missing key of a dict,
TypeError when `data` is not a dict at all. -/
def jsonIndex (data : Json) (k : String) : Except PyExc Json :=
  match data with
  | .obj fields =>
    match jsonGet fields k with
    | some v => .ok v
    | Option.none => .error .keyError
  | _ => .error .typeError

def allowedTaskKeys : List String :=
  ["task_number", "status", "started_at", "completed_at", "commit_hash",
   "files_modified", "error"]

/-- `TaskStatus(**task_data)`: TypeError unless `task_data` is a mapping whose
keys are exactly arguments of the dataclass, with the two non-defaulted
fields present; values are taken as they are. -/
def taskStatusOfKwargs (task_data : Json) : Except PyExc TaskStatus :=
  match task_data with
  | .obj fields =>
    let ks := (jsonEntries fields).map (fun p => p.1)
    if ks.all (fun k => allowedTaskKeys.contains k) &&
        ks.contains "task_number" && ks.contains "status" then
      .ok { task_number := (jsonGet fields "task_number").getD Json.null,
            status := (jsonGet fields "status").getD Json.null,
            started_at := (jsonGet fields "started_at").getD Json.null,
            completed_at := (jsonGet fields "completed_at").getD Json.null,
            commit_hash := (jsonGet fields "commit_hash").getD Json.null,
            files_modified := (jsonGet fields "files_modified").getD (Json.arr []),
            error := (jsonGet fields "error").getD Json.null }
    else .error .typeError
  | _ => .error .typeError

/-- The body of the `try` block of `ExecutionStatus.load` applied to a parsed
document. -/
def loadParsed (data : Json) : Except PyExc ExecutionStatus :=
  match jsonIndex data "epic_name" with
  | .error e => .error e
  | .ok epic =>
  match jsonIndex data "branch_name" with
  | .error e => .error e
  | .ok branch =>
  match jsonIndex data "worktree_path" with
  | .error e => .error e
  | .ok worktree =>
  match jsonIndex data "started_at" with
  | .error e => .error e
  | .ok started =>
  let base : ExecutionStatus :=
    { epic_name := epic, branch_name := branch, worktree_path := worktree,
      started_at := started, tasks := [],
      last_updated := (match data with
        | .obj fields => (jsonGet fields "last_updated").getD (Json.str "")
        | _ => Json.str "") }
  let tasksVal := (match data with
    | .obj fields => (jsonGet fields "tasks").getD (Json.obj [])
    | _ => Json.obj [])
  match tasksVal with
  | .obj taskFields =>
    (jsonEntries taskFields).foldlM
      (fun (st : ExecutionStatus) p =>
        match pyIntOfString p.1 with
        | Option.none => .error PyExc.valueError
        | some task_num =>
          match taskStatusOfKwargs p.2 with
          | .error e => .error e
          | .ok ts => .ok { st with tasks := dictInsert st.tasks task_num ts })
      base
  | _ => .error .attributeError

/-- The persisted status file as found on disk. -/
inductive LedgerFile where
  | missing
  | unparseable
  | parsed (doc : Json)

/-- `ExecutionStatus.load`: `None` for a missing file; the `except` clause
turns a decode error, KeyError or TypeError into `None`; any other exception
escapes. -/
def statusLoad (f : LedgerFile) : Except PyExc (Option ExecutionStatus) :=
  match f with
  | .missing => .ok Option.none
  | .unparseable => .ok Option.none
  | .parsed doc =>
    match loadParsed doc with
    | .ok st => .ok (some st)
    | .error .keyError => .ok Option.none
    | .error .typeError => .ok Option.none
    | .error e => .error e

/-- `load_or_create_status`. -/
def load_or_create_status (f : LedgerFile)
    (epic_name branch_name worktree_path now : String) :
    Except PyExc ExecutionStatus :=
  match statusLoad f with
  | .error e => .error e
  | .ok (some existing) => .ok { existing with worktree_path := Json.str worktree_path }
  | .ok Option.none => .ok (newStatus epic_name branch_name worktree_path now)

/-- A persisted document that fails to come back as the expected structure. -/
def Malformed (f : LedgerFile) : Prop :=
  f = .unparseable ∨ ∃ doc e, f = .parsed doc ∧ loadParsed doc = .error e

/-! ## C10: the empty task set -/

/-! ## Concrete fixtures and invariant definitions used by the proofs -/

/-- The task set 1, 2 where 2 depends on 1. -/
def chain2 : List TaskDefinition := [⟨1, []⟩, ⟨2, [1]⟩]

def chain2Plan : ExecutionPlan := ⟨[[1], [2]], [1, 2], [(1, []), (2, [1])]⟩

/-- The task set 1, 2, 3 with 2 depending on 1 and 3 on 2. -/
def chain3 : List TaskDefinition := [⟨1, []⟩, ⟨2, [1]⟩, ⟨3, [2]⟩]

def chain3Plan : ExecutionPlan := ⟨[[1], [2], [3]], [1, 2, 3], [(1, []), (2, [1]), (3, [2])]⟩

/-- An executor whose implementation reports failure for every task. -/
def failExec : Int → Bool := fun _ => false

/-- `run_pool` on the chain 1 ← 2 resumed with `pre_completed = {1, 2}`. -/
def cfg6 (ex : Int → Bool) : PoolCfg := ⟨chain2, chain2Plan, ex, 4, {1, 2}⟩

/-- Chain 1 ← 2 with a failing executor and concurrency limit 1. -/
def cfg1bug : PoolCfg := ⟨chain2, chain2Plan, failExec, 1, ∅⟩

/-- Chain 1 ← 2 ← 3 where task 1's executor reports failure (the scenario of
the claim, with the default concurrency limit 4). -/
def cfg2bug : PoolCfg := ⟨chain3, chain3Plan, failExec, 4, ∅⟩

/-- Invariant of every reachable loop state of the C2 scenario. -/
def C2Inv (s : PoolState) : Prop :=
  s.completed = ∅ ∧ s.failed ⊆ {1} ∧ s.inProgress ⊆ {1} ∧
    s.dispatched 2 = 0 ∧ s.dispatched 3 = 0

/-- A syntactically valid document with the full header but a non-integer key
in the tasks mapping: `int("abc")` raises an uncaught `ValueError`. -/
def badTasksDoc : Json := Json.obj
  [("epic_name", Json.str "demo"), ("branch_name", Json.str "main"),
   ("worktree_path", Json.str "wt"), ("started_at", Json.str "now"),
   ("tasks", Json.obj [("abc", Json.obj
      [("task_number", Json.num 1), ("status", Json.str "pending")])])]

/-- The discipline under which the pool issues ledger operations: an
operation only ever touches a task that is not yet terminal. -/
def WFOps (init : ExecutionStatus) (ops : List LedgerOp) : Prop :=
  ∀ (i : Nat) (hi : i < ops.length),
    statusRank (statusOf (applyOps init (ops.take i)) (ops.get ⟨i, hi⟩).num) ≤ 1

/-- The dependency list of the task numbered `n` (dict semantics, mirroring
`build_in_degree`); `[]` when no task has that number. -/
def depsOf (tasks : List TaskDefinition) (n : Int) : List Int :=
  match tasks.reverse.find? (fun t => t.number == n) with
  | some t => t.dependencies
  | Option.none => []

/-- The dependencies of task `n` that are not pre-completed, as a set. -/
def nonpreDeps (tasks : List TaskDefinition) (pre : Finset Int) (n : Int) : Finset Int :=
  (depsOf tasks n).toFinset \ pre

/-- Spec-side notion used by C5: a task is resolvable when each of its
dependencies is pre-completed or (recursively) a resolvable task; the task
set is fully orderable exactly when every task is resolvable. -/
inductive Resolvable (tasks : List TaskDefinition) (pre : Finset Int) : Int → Prop where
  | step (t : TaskDefinition) (ht : t ∈ tasks)
      (h : ∀ d ∈ t.dependencies, d ∉ pre → Resolvable tasks pre d) :
      Resolvable tasks pre t.number

/-- Invariant of the Kahn loop between iterations: `order` is the flattening
of the levels built so far, placed and queued numbers are distinct task
numbers, the degree map counts the not-yet-placed non-pre-completed
dependencies, dependencies of placed tasks sit in strictly earlier levels,
dependencies of queued tasks are already placed, and every task whose
non-pre-completed dependencies are all placed has been placed or queued. -/
structure KahnInv (tasks : List TaskDefinition) (pre : Finset Int)
    (levels : List (List Int)) (order queue : List Int) (deg : Int → Int) : Prop where
  horder : order = levels.flatten
  hnodup : (order ++ queue).Nodup
  hsub : ∀ n ∈ order ++ queue, n ∈ tasks.map TaskDefinition.number
  hdeg : ∀ n ∈ tasks.map TaskDefinition.number,
      deg n = ((nonpreDeps tasks pre n \ order.toFinset).card : Int)
  hlevels : ∀ (i : Nat) (hi : i < levels.length), ∀ n ∈ levels.get ⟨i, hi⟩,
      ∀ d ∈ depsOf tasks n, d ∉ pre → d ∈ (levels.take i).flatten
  hqueue : ∀ n ∈ queue, ∀ d ∈ depsOf tasks n, d ∉ pre → d ∈ order
  hcomplete : ∀ n ∈ tasks.map TaskDefinition.number,
      (∀ d ∈ depsOf tasks n, d ∉ pre → d ∈ order) → n ∈ order ++ queue

/-- Invariant while one level `q` is being processed: `pr` is the processed
prefix of the level and `acc` the next queue accumulated so far. -/
structure MidInv (tasks : List TaskDefinition) (pre : Finset Int)
    (order q pr acc : List Int) (deg : Int → Int) : Prop where
  hdeg : ∀ n ∈ tasks.map TaskDefinition.number,
      deg n = ((nonpreDeps tasks pre n \ (order ++ pr).toFinset).card : Int)
  hacc_nodup : acc.Nodup
  hacc_nums : ∀ n ∈ acc, n ∈ tasks.map TaskDefinition.number
  hacc_fresh : ∀ n ∈ acc, n ∉ order ++ q
  hacc_deps : ∀ n ∈ acc, ∀ d ∈ depsOf tasks n, d ∉ pre → d ∈ order ++ pr
  hacc_complete : ∀ n ∈ tasks.map TaskDefinition.number, n ∉ order ++ q →
      (∀ d ∈ depsOf tasks n, d ∉ pre → d ∈ order ++ pr) → n ∈ acc

/-! ## Theorems -/

/-- C10: for the empty task set, `create_execution_plan` returns — without
raising — a plan with empty levels, empty flat order and empty dependency
map, whatever the pre-completed set is. -/
theorem claim_C10 (pre : Finset Int) :
    create_execution_plan [] pre = .ok ⟨[], [], []⟩ := rfl

/-! ## C9: dependency extraction -/

lemma mem_depsFold (l : List PyVal) (s0 : Finset Int) (x : Int)
    (hx : x ∈ l.foldl
      (fun s d => match _to_int d with
        | some i => insert i s
        | Option.none => s) s0) :
    x ∈ s0 ∨ ∃ v ∈ l, _to_int v = some x := by
  induction l generalizing s0 with
  | nil => exact Or.inl hx
  | cons d l ih =>
    rw [List.foldl_cons] at hx
    cases hto : _to_int d with
    | none =>
      rw [hto] at hx
      rcases ih s0 hx with h | ⟨v, hv, hvx⟩
      · exact Or.inl h
      · exact Or.inr ⟨v, List.mem_cons_of_mem _ hv, hvx⟩
    | some i =>
      rw [hto] at hx
      rcases ih _ hx with h | ⟨v, hv, hvx⟩
      · rcases Finset.mem_insert.mp h with rfl | h
        · exact Or.inr ⟨d, List.mem_cons_self _ _, hto⟩
        · exact Or.inl h
      · exact Or.inr ⟨v, List.mem_cons_of_mem _ hv, hvx⟩

/-- C9: the extracted dependency list never contains the task's own number,
contains every id at most once, and every element stems from a declared value
that `_to_int` converts (non-integer values are dropped, never an error —
`extract_dependencies` is total). -/
theorem claim_C9 (fm : List (String × PyVal)) (self_task_num : Int) :
    self_task_num ∉ extract_dependencies fm self_task_num ∧
    (extract_dependencies fm self_task_num).Nodup ∧
    ∀ x ∈ extract_dependencies fm self_task_num,
      ∃ v ∈ declaredDependsOn fm, _to_int v = some x := by
  refine ⟨?_, Finset.sort_nodup _ _, ?_⟩
  · intro h
    rw [extract_dependencies, Finset.mem_sort] at h
    exact Finset.not_mem_erase _ _ h
  · intro x hx
    rw [extract_dependencies, Finset.mem_sort] at hx
    have hx' := Finset.mem_of_mem_erase hx
    rcases mem_depsFold _ _ _ hx' with h | h
    · exact absurd h (Finset.not_mem_empty x)
    · exact h

/-! ## Generic facts about the pool loop -/

lemma admitOne_card_le (cfg : PoolCfg) (s : PoolState) (n : Int)
    (h : s.inProgress.card ≤ cfg.maxConcurrent) :
    (admitOne cfg s n).inProgress.card ≤ cfg.maxConcurrent := by
  rw [admitOne]
  split
  case isTrue hc =>
    simpa [Finset.card_insert_of_not_mem hc.1] using hc.2
  case isFalse => exact h

lemma foldl_admitOne_card_le (cfg : PoolCfg) (l : List Int) :
    ∀ s : PoolState, s.inProgress.card ≤ cfg.maxConcurrent →
      (l.foldl (admitOne cfg) s).inProgress.card ≤ cfg.maxConcurrent := by
  induction l with
  | nil => exact fun s h => h
  | cons a l ih =>
    intro s h
    exact ih _ (admitOne_card_le cfg s a h)

lemma admitAll_card_le (cfg : PoolCfg) (s : PoolState)
    (h : s.inProgress.card ≤ cfg.maxConcurrent) :
    (admitAll cfg s).inProgress.card ≤ cfg.maxConcurrent :=
  foldl_admitOne_card_le cfg _ s h

lemma admitOne_inProgress_mono (cfg : PoolCfg) (s : PoolState) (n : Int) :
    s.inProgress ⊆ (admitOne cfg s n).inProgress := by
  rw [admitOne]
  split
  · exact Finset.subset_insert _ _
  · exact Finset.Subset.refl _

lemma foldl_admitOne_inProgress_mono (cfg : PoolCfg) (l : List Int) :
    ∀ s : PoolState, s.inProgress ⊆ (l.foldl (admitOne cfg) s).inProgress := by
  induction l with
  | nil => exact fun s => Finset.Subset.refl _
  | cons a l ih =>
    intro s
    exact (admitOne_inProgress_mono cfg s a).trans (ih _)

lemma admitAll_inProgress_mono (cfg : PoolCfg) (s : PoolState) :
    s.inProgress ⊆ (admitAll cfg s).inProgress :=
  foldl_admitOne_inProgress_mono cfg _ s

/-! ## C3: the concurrency ceiling -/

/-- C3: for every task set, plan, executor and concurrency limit at least 1,
at no reachable point of the control loop does the in-progress set hold more
than `max_concurrent` tasks. -/
lemma poolStep_card_le (cfg : PoolCfg) {s t : PoolState} (hstep : PoolStep cfg s t)
    (h : s.inProgress.card ≤ cfg.maxConcurrent) :
    t.inProgress.card ≤ cfg.maxConcurrent := by
  cases hstep with
  | wait D hguard hne hsub =>
    refine le_trans (Finset.card_le_card ?_) (admitAll_card_le cfg s h)
    exact Finset.sdiff_subset
  | spin hguard hempty hready =>
    exact admitAll_card_le cfg s h

theorem claim_C3 (cfg : PoolCfg) (_hN : 1 ≤ cfg.maxConcurrent)
    (s : PoolState) (hs : PoolReaches cfg s) :
    s.inProgress.card ≤ cfg.maxConcurrent := by
  induction hs with
  | refl => simp [initState]
  | tail _ hstep ih => exact poolStep_card_le cfg hstep ih

/-- Closed instance of C3 at a concrete configuration and the initial state. -/
theorem claim_C3_witness :
    1 ≤ (⟨[⟨1, []⟩], ⟨[[1]], [1], [(1, [])]⟩, fun _ => true, 2, ∅⟩ : PoolCfg).maxConcurrent ∧
    (initState ⟨[⟨1, []⟩], ⟨[[1]], [1], [(1, [])]⟩, fun _ => true, 2, ∅⟩).inProgress.card ≤
      (⟨[⟨1, []⟩], ⟨[[1]], [1], [(1, [])]⟩, fun _ => true, 2, ∅⟩ : PoolCfg).maxConcurrent :=
  ⟨by decide,
    claim_C3 _ (by decide) _ Relation.ReflTransGen.refl⟩

/-! ## Concrete pool scenarios -/

lemma chain2_plan_eq : create_execution_plan chain2 ∅ = .ok chain2Plan := rfl

lemma chain3_plan_eq : create_execution_plan chain3 ∅ = .ok chain3Plan := rfl

/-! ## C6: resume with everything pre-completed -/

/-- C6: with `pre_completed = {1, 2}` on the task set `{1: [], 2: [1]}`, the
loop guard fails immediately: the only reachable loop state is the initial
one, it is terminal (the pool returns), the executor is dispatched zero
times, and the returned completed set contains `{1, 2}`. -/
theorem claim_C6 (ex : Int → Bool) (s : PoolState)
    (hs : PoolReaches (cfg6 ex) s) :
    s = initState (cfg6 ex) ∧ ({1, 2} : Finset Int) ⊆ s.completed ∧
      (∀ n, s.dispatched n = 0) ∧ PoolTerminal (cfg6 ex) s := by
  have hdone : tasksDone (cfg6 ex) (initState (cfg6 ex)) = 2 := rfl
  have hlen : (cfg6 ex).tasks.length = 2 := rfl
  have heq : s = initState (cfg6 ex) := by
    induction hs with
    | refl => rfl
    | tail _ hstep ih =>
      rw [ih] at hstep
      cases hstep with
      | wait D hguard hne hsub => rw [hdone, hlen] at hguard; omega
      | spin hguard hempty hready => rw [hdone, hlen] at hguard; omega
  subst heq
  refine ⟨rfl, Finset.Subset.refl _, fun n => rfl, Or.inl ?_⟩
  rw [hdone, hlen]

/-- Closed instance of C6 at the initial state with an all-success executor. -/
theorem claim_C6_witness :
    ({1, 2} : Finset Int) ⊆ (initState (cfg6 (fun _ => true))).completed ∧
    (initState (cfg6 (fun _ => true))).dispatched 1 = 0 ∧
    PoolTerminal (cfg6 (fun _ => true)) (initState (cfg6 (fun _ => true))) := by
  obtain ⟨-, h1, h2, h3⟩ := claim_C6 (fun _ => true) _ Relation.ReflTransGen.refl
  exact ⟨h1, h2 1, h3⟩

/-! ## C1: a failed task is dispatched again -/

/-- C1 refutation: after task 1 fails, `get_ready_tasks` (which never
consults the failed set) reports it ready again and the loop re-dispatches
it: a loop state is reachable where task 1 is recorded failed and has been
dispatched twice. -/
theorem claim_C1 :
    ∃ s, PoolReaches cfg1bug s ∧ s.failed = {1} ∧ s.dispatched 1 = 2 := by
  have h1 : PoolStep cfg1bug (initState cfg1bug)
      (completeSet cfg1bug (admitAll cfg1bug (initState cfg1bug)) {1}) :=
    PoolStep.wait _ {1} (by decide) ⟨1, by decide⟩ (by decide)
  have h2 : PoolStep cfg1bug
      (completeSet cfg1bug (admitAll cfg1bug (initState cfg1bug)) {1})
      (completeSet cfg1bug
        (admitAll cfg1bug
          (completeSet cfg1bug (admitAll cfg1bug (initState cfg1bug)) {1})) {1}) :=
    PoolStep.wait _ {1} (by decide) ⟨1, by decide⟩ (by decide)
  exact ⟨_, Relation.ReflTransGen.tail (Relation.ReflTransGen.tail
    Relation.ReflTransGen.refl h1) h2, by decide, by decide⟩

/-! ## C2: failing the root of a chain of three -/

lemma admitOne_completed (cfg : PoolCfg) (s : PoolState) (n : Int) :
    (admitOne cfg s n).completed = s.completed := by
  rw [admitOne]; split <;> rfl

lemma admitOne_failed (cfg : PoolCfg) (s : PoolState) (n : Int) :
    (admitOne cfg s n).failed = s.failed := by
  rw [admitOne]; split <;> rfl

lemma admitOne_dispatched_ne (cfg : PoolCfg) (s : PoolState) (n k : Int) (hk : k ≠ n) :
    (admitOne cfg s n).dispatched k = s.dispatched k := by
  rw [admitOne]; split
  · dsimp only; rw [if_neg hk]
  · rfl

lemma foldl_admitOne_completed (cfg : PoolCfg) (l : List Int) :
    ∀ s : PoolState, (l.foldl (admitOne cfg) s).completed = s.completed := by
  induction l with
  | nil => exact fun _ => rfl
  | cons a l ih => exact fun s => (ih _).trans (admitOne_completed cfg s a)

lemma foldl_admitOne_failed (cfg : PoolCfg) (l : List Int) :
    ∀ s : PoolState, (l.foldl (admitOne cfg) s).failed = s.failed := by
  induction l with
  | nil => exact fun _ => rfl
  | cons a l ih => exact fun s => (ih _).trans (admitOne_failed cfg s a)

lemma foldl_admitOne_dispatched (cfg : PoolCfg) (l : List Int) :
    ∀ (s : PoolState) (k : Int), k ∉ l →
      (l.foldl (admitOne cfg) s).dispatched k = s.dispatched k := by
  induction l with
  | nil => exact fun _ _ _ => rfl
  | cons a l ih =>
    intro s k hk
    rw [List.mem_cons, not_or] at hk
    rw [List.foldl_cons, ih _ k hk.2, admitOne_dispatched_ne cfg s a k hk.1]

lemma admitAll_completed (cfg : PoolCfg) (s : PoolState) :
    (admitAll cfg s).completed = s.completed :=
  foldl_admitOne_completed cfg _ s

lemma admitAll_failed (cfg : PoolCfg) (s : PoolState) :
    (admitAll cfg s).failed = s.failed :=
  foldl_admitOne_failed cfg _ s

lemma admitAll_dispatched (cfg : PoolCfg) (s : PoolState) (k : Int)
    (hk : k ∉ readyList cfg s) :
    (admitAll cfg s).dispatched k = s.dispatched k :=
  foldl_admitOne_dispatched cfg _ s k hk

lemma completeSet_completed (cfg : PoolCfg) (s : PoolState) (D : Finset Int) :
    (completeSet cfg s D).completed =
      s.completed ∪ D.filter (fun n => taskSuccess cfg n = true) := rfl

lemma completeSet_failed (cfg : PoolCfg) (s : PoolState) (D : Finset Int) :
    (completeSet cfg s D).failed =
      s.failed ∪ D.filter (fun n => taskSuccess cfg n = false) := rfl

lemma completeSet_inProgress (cfg : PoolCfg) (s : PoolState) (D : Finset Int) :
    (completeSet cfg s D).inProgress = s.inProgress \ D := rfl

lemma completeSet_dispatched (cfg : PoolCfg) (s : PoolState) (D : Finset Int) (k : Int) :
    (completeSet cfg s D).dispatched k = s.dispatched k := rfl

lemma c2_filter_true :
    ({1} : Finset Int).filter (fun n => taskSuccess cfg2bug n = true) = ∅ := by decide

lemma c2_filter_false :
    ({1} : Finset Int).filter (fun n => taskSuccess cfg2bug n = false) = {1} := by decide

lemma c2_inv_step {s t : PoolState} (hstep : PoolStep cfg2bug s t)
    (h : C2Inv s) : C2Inv t := by
  obtain ⟨c, f, p, d⟩ := s
  obtain ⟨hc, hf, hp, h2, h3⟩ := h
  dsimp only at hc hf hp h2 h3
  subst hc
  rcases Finset.subset_singleton_iff.mp hp with hp' | hp' <;> subst hp'
  · -- nothing in progress: admission dispatches exactly task 1
    have hready : readyList cfg2bug ⟨∅, f, ∅, d⟩ = [1] := rfl
    have hip : (admitAll cfg2bug ⟨∅, f, ∅, d⟩).inProgress = {1} := rfl
    cases hstep with
    | wait D hguard hne hsub =>
      rw [hip] at hsub
      rcases Finset.subset_singleton_iff.mp hsub with hD | hD
      · obtain ⟨x, hx⟩ := hne
        rw [hD] at hx
        exact absurd hx (Finset.not_mem_empty x)
      subst hD
      refine ⟨?_, ?_, ?_, ?_, ?_⟩
      · rw [completeSet_completed, admitAll_completed, c2_filter_true]
        exact Finset.union_empty _
      · rw [completeSet_failed, admitAll_failed, c2_filter_false]
        exact Finset.union_subset hf (Finset.Subset.refl _)
      · rw [completeSet_inProgress, hip]
        exact Finset.sdiff_subset.trans (Finset.Subset.refl _)
      · rw [completeSet_dispatched,
          admitAll_dispatched _ _ _ (by rw [hready]; decide)]
        exact h2
      · rw [completeSet_dispatched,
          admitAll_dispatched _ _ _ (by rw [hready]; decide)]
        exact h3
    | spin hguard hempty hready2 =>
      rw [hip] at hempty
      exact absurd hempty (by decide)
  · -- task 1 already in flight: nothing is admitted
    have hadm : admitAll cfg2bug ⟨∅, f, {1}, d⟩ = ⟨∅, f, {1}, d⟩ := rfl
    cases hstep with
    | wait D hguard hne hsub =>
      rw [hadm] at hsub ⊢
      have hsub' : D ⊆ ({1} : Finset Int) := hsub
      rcases Finset.subset_singleton_iff.mp hsub' with hD | hD
      · obtain ⟨x, hx⟩ := hne
        rw [hD] at hx
        exact absurd hx (Finset.not_mem_empty x)
      subst hD
      refine ⟨?_, ?_, ?_, h2, h3⟩
      · rw [completeSet_completed, c2_filter_true]
        exact Finset.union_empty _
      · rw [completeSet_failed, c2_filter_false]
        exact Finset.union_subset hf (Finset.Subset.refl _)
      · rw [completeSet_inProgress]
        exact Finset.sdiff_subset.trans (Finset.Subset.refl _)
    | spin hguard hempty hready2 =>
      rw [hadm] at hempty
      exact absurd (show ({1} : Finset Int) = ∅ from hempty) (by decide)

lemma c2_inv_reaches {s : PoolState} (hs : PoolReaches cfg2bug s) : C2Inv s := by
  induction hs with
  | refl => exact ⟨rfl, by decide, by decide, rfl, rfl⟩
  | tail _ hstep ih => exact c2_inv_step hstep ih

lemma c2_inv_not_terminal {s : PoolState} (h : C2Inv s) :
    ¬ PoolTerminal cfg2bug s := by
  obtain ⟨c, f, p, d⟩ := s
  obtain ⟨hc, hf, hp, h2, h3⟩ := h
  dsimp only at hc hf hp h2 h3
  subst hc
  intro hterm
  have hcard : (f ∩ cfg2bug.taskNums).card ≤ 1 := by
    refine le_trans (Finset.card_le_card (Finset.inter_subset_left.trans hf)) ?_
    decide
  rcases hterm with hdone | ⟨hempty, hready⟩
  · have heq : tasksDone cfg2bug ⟨∅, f, p, d⟩ =
        ((∅ : Finset Int) ∩ cfg2bug.taskNums).card + (f ∩ cfg2bug.taskNums).card := rfl
    rw [heq] at hdone
    simp only [Finset.empty_inter, Finset.card_empty, zero_add] at hdone
    have hlen : cfg2bug.tasks.length = 3 := rfl
    rw [hlen] at hdone
    omega
  · rcases Finset.subset_singleton_iff.mp hp with hp' | hp' <;> subst hp'
    · have heq : readyList cfg2bug ⟨∅, f, ∅, d⟩ = [1] := rfl
      rw [heq] at hready
      exact absurd hready (by decide)
    · have hadm : admitAll cfg2bug ⟨∅, f, {1}, d⟩ = ⟨∅, f, {1}, d⟩ := rfl
      rw [hadm] at hempty
      exact absurd (show ({1} : Finset Int) = ∅ from hempty) (by decide)

/-- C2 refutation: in the scenario `{1: [], 2: [1], 3: [2]}` with task 1's
executor failing, the pool re-dispatches task 1 (a reachable state has it
failed and dispatched twice, with 2 and 3 never dispatched), and no
reachable loop state is terminal: `run_pool` never returns, instead of
returning `completed = {}`, `failed = {1}`. -/
theorem claim_C2 :
    (∃ s, PoolReaches cfg2bug s ∧ s.failed = {1} ∧ 2 ≤ s.dispatched 1 ∧
      s.dispatched 2 = 0 ∧ s.dispatched 3 = 0) ∧
    ∀ s, PoolReaches cfg2bug s → ¬ PoolTerminal cfg2bug s := by
  constructor
  · have h1 : PoolStep cfg2bug (initState cfg2bug)
        (completeSet cfg2bug (admitAll cfg2bug (initState cfg2bug)) {1}) :=
      PoolStep.wait _ {1} (by decide) ⟨1, by decide⟩ (by decide)
    have h2 : PoolStep cfg2bug
        (completeSet cfg2bug (admitAll cfg2bug (initState cfg2bug)) {1})
        (completeSet cfg2bug
          (admitAll cfg2bug
            (completeSet cfg2bug (admitAll cfg2bug (initState cfg2bug)) {1})) {1}) :=
      PoolStep.wait _ {1} (by decide) ⟨1, by decide⟩ (by decide)
    exact ⟨_, Relation.ReflTransGen.tail (Relation.ReflTransGen.tail
      Relation.ReflTransGen.refl h1) h2, by decide, by decide, by decide, by decide⟩
  · exact fun s hs => c2_inv_not_terminal (c2_inv_reaches hs)

/-- Closed instance of C2's divergence at the initial state. -/
theorem claim_C2_witness :
    ¬ PoolTerminal cfg2bug (initState cfg2bug) :=
  claim_C2.2 _ Relation.ReflTransGen.refl

/-! ## C7: loading a malformed ledger document -/

/-- C7 refutation: a malformed persisted document exists for which loading
raises an error to the caller instead of producing a fresh ledger. -/
theorem claim_C7_counterexample :
    Malformed (.parsed badTasksDoc) ∧
    load_or_create_status (.parsed badTasksDoc) "demo" "main" "wt" "now" =
      .error .valueError := by
  have hload : loadParsed badTasksDoc = .error .valueError := by rfl
  exact ⟨Or.inr ⟨badTasksDoc, .valueError, rfl, hload⟩, by rfl⟩

/-- C7 (amended): a malformed document whose failure is a decode error, a
missing key, or a type error — the exception classes `ExecutionStatus.load`
catches — is silently replaced by a fresh ledger with an empty task mapping;
(a malformed tasks mapping with a non-integer key, or a non-mapping tasks
value, instead escapes as an error, cf. the counterexample). -/
theorem claim_C7 (f : LedgerFile) (en bn wt now : String)
    (h : f = .unparseable ∨ ∃ doc, f = .parsed doc ∧
      (loadParsed doc = .error .keyError ∨ loadParsed doc = .error .typeError)) :
    Malformed f ∧
    load_or_create_status f en bn wt now = .ok (newStatus en bn wt now) ∧
    (newStatus en bn wt now).tasks = [] := by
  refine ⟨?_, ?_, rfl⟩
  · rcases h with h | ⟨doc, rfl, h | h⟩
    · exact Or.inl h
    · exact Or.inr ⟨doc, _, rfl, h⟩
    · exact Or.inr ⟨doc, _, rfl, h⟩
  · rcases h with rfl | ⟨doc, rfl, h | h⟩
    · rfl
    · simp only [load_or_create_status, statusLoad, h]
    · simp only [load_or_create_status, statusLoad, h]

/-- Closed instance of C7 (amended) on an unparseable document. -/
theorem claim_C7_witness :
    load_or_create_status .unparseable "e" "b" "w" "n" = .ok (newStatus "e" "b" "w" "n") :=
  (claim_C7 .unparseable "e" "b" "w" "n" (Or.inl rfl)).2.1

/-! ## C8: ledger status monotonicity -/

lemma find?_map_update (m : List (Int × TaskStatus)) (k n : Int) (v : TaskStatus)
    (hn : n ≠ k) :
    (m.map (fun p => if p.1 == k then (k, v) else p)).find? (fun p => p.1 == n) =
      m.find? (fun p => p.1 == n) := by
  induction m with
  | nil => rfl
  | cons p m ih =>
    rw [List.map_cons]
    by_cases hp : (p.1 == k) = true
    · have hk : p.1 = k := by simpa using hp
      rw [if_pos hp]
      rw [List.find?_cons_of_neg, List.find?_cons_of_neg, ih]
      · simp [hk, Ne.symm hn]
      · simp [Ne.symm hn]
    · rw [if_neg hp]
      by_cases hpn : (p.1 == n) = true
      · rw [List.find?_cons_of_pos, List.find?_cons_of_pos]
        · exact hpn
        · exact hpn
      · rw [List.find?_cons_of_neg, List.find?_cons_of_neg, ih]
        · exact hpn
        · exact hpn

lemma lookupTask_dictInsert_self (m : List (Int × TaskStatus)) (k : Int) (v : TaskStatus) :
    lookupTask (dictInsert m k v) k = some v := by
  unfold dictInsert
  split
  case isTrue h =>
    rw [List.any_eq_true] at h
    obtain ⟨p, hp, hpk⟩ := h
    unfold lookupTask
    induction m with
    | nil => exact absurd hp (List.not_mem_nil p)
    | cons q m ih =>
      rw [List.map_cons]
      by_cases hq : (q.1 == k) = true
      · rw [if_pos hq, List.find?_cons_of_pos]
        · rfl
        · simp
      · rw [if_neg hq, List.find?_cons_of_neg]
        · rcases List.mem_cons.mp hp with rfl | hp'
          · exact absurd hpk hq
          · exact ih hp'
        · exact hq
  case isFalse h =>
    unfold lookupTask
    have hnone : m.find? (fun p => p.1 == k) = Option.none := by
      rw [List.find?_eq_none]
      intro p hp
      intro hpk
      exact h (List.any_eq_true.mpr ⟨p, hp, hpk⟩)
    have hone : (([(k, v)] : List (Int × TaskStatus)).find? (fun p => p.1 == k)) =
        some (k, v) :=
      List.find?_cons_of_pos _ (by simp)
    rw [List.find?_append, hnone, hone]
    rfl

lemma lookupTask_dictInsert_ne (m : List (Int × TaskStatus)) (k : Int) (v : TaskStatus)
    (n : Int) (hn : n ≠ k) :
    lookupTask (dictInsert m k v) n = lookupTask m n := by
  unfold dictInsert
  split
  · unfold lookupTask
    rw [find?_map_update m k n v hn]
  · unfold lookupTask
    have h1 : (([(k, v)] : List (Int × TaskStatus)).find? (fun p => p.1 == n)) =
        Option.none := by
      rw [List.find?_eq_none]
      intro p hp hpk
      rw [List.mem_singleton] at hp
      subst hp
      have : k = n := by simpa using hpk
      exact hn this.symm
    rw [List.find?_append, h1, Option.or_none]

lemma statusOf_mark_started_self (st : ExecutionStatus) (n : Int) (now : String) :
    statusOf (mark_started st n now) n = Json.str "in_progress" := by
  unfold statusOf mark_started
  rw [lookupTask_dictInsert_self]

lemma statusOf_mark_completed_self (st : ExecutionStatus) (n : Int)
    (fs : Option (List String)) (ch : Option String) (now : String) :
    statusOf (mark_completed st n fs ch now) n = Json.str "completed" := by
  unfold statusOf mark_completed
  rw [lookupTask_dictInsert_self]

lemma statusOf_mark_failed_self (st : ExecutionStatus) (n : Int)
    (e : Option String) (now : String) :
    statusOf (mark_failed st n e now) n = Json.str "failed" := by
  unfold statusOf mark_failed
  rw [lookupTask_dictInsert_self]

lemma statusOf_applyOp_ne (st : ExecutionStatus) (op : LedgerOp) (n : Int)
    (hn : n ≠ op.num) :
    statusOf (applyOp st op) n = statusOf st n := by
  cases op with
  | started k now =>
    have hn2 : n ≠ k := hn
    show statusOf (mark_started st k now) n = statusOf st n
    unfold statusOf mark_started
    rw [lookupTask_dictInsert_ne _ _ _ _ hn2]
  | completedOp k fs ch now =>
    have hn2 : n ≠ k := hn
    show statusOf (mark_completed st k fs ch now) n = statusOf st n
    unfold statusOf mark_completed
    rw [lookupTask_dictInsert_ne _ _ _ _ hn2]
  | failedOp k e now =>
    have hn2 : n ≠ k := hn
    show statusOf (mark_failed st k e now) n = statusOf st n
    unfold statusOf mark_failed
    rw [lookupTask_dictInsert_ne _ _ _ _ hn2]

/-- One ledger mutation advances the recorded status of every task, provided
the touched task is not yet terminal. -/
lemma advances_applyOp (st : ExecutionStatus) (op : LedgerOp) (n : Int)
    (h : statusRank (statusOf st op.num) ≤ 1) :
    advances (statusOf st n) (statusOf (applyOp st op) n) := by
  by_cases hn : n = op.num
  · subst hn
    constructor
    · cases op with
      | started k now =>
        show statusRank (statusOf st k) ≤ statusRank (statusOf (mark_started st k now) k)
        rw [statusOf_mark_started_self]
        exact h
      | completedOp k fs ch now =>
        show statusRank (statusOf st k) ≤
          statusRank (statusOf (mark_completed st k fs ch now) k)
        rw [statusOf_mark_completed_self]
        exact le_trans h (by decide)
      | failedOp k e now =>
        show statusRank (statusOf st k) ≤ statusRank (statusOf (mark_failed st k e now) k)
        rw [statusOf_mark_failed_self]
        exact le_trans h (by decide)
    · intro h2
      rw [h2] at h
      exact absurd h (by decide)
  · rw [statusOf_applyOp_ne st op n hn]
    exact ⟨le_refl _, fun _ => rfl⟩

lemma applyOps_take_succ (init : ExecutionStatus) (ops : List LedgerOp)
    (i : Nat) (hi : i < ops.length) :
    applyOps init (ops.take (i + 1)) =
      applyOp (applyOps init (ops.take i)) (ops.get ⟨i, hi⟩) := by
  unfold applyOps
  rw [List.take_succ, List.getElem?_eq_getElem hi]
  rw [List.foldl_append]
  rfl

/-- C8 counterexample: `mark_completed` followed by `mark_started` on the
same task regresses its recorded status from completed back to in_progress —
the ledger methods set statuses unconditionally and enforce no order. -/
theorem claim_C8_counterexample :
    statusOf (applyOps (newStatus "e" "b" "w" "t0")
      [LedgerOp.completedOp 1 Option.none Option.none "t1"]) 1 = Json.str "completed" ∧
    statusOf (applyOps (newStatus "e" "b" "w" "t0")
      [LedgerOp.completedOp 1 Option.none Option.none "t1",
       LedgerOp.started 1 "t2"]) 1 = Json.str "in_progress" ∧
    ¬ advances
      (statusOf (applyOps (newStatus "e" "b" "w" "t0")
        [LedgerOp.completedOp 1 Option.none Option.none "t1"]) 1)
      (statusOf (applyOps (newStatus "e" "b" "w" "t0")
        [LedgerOp.completedOp 1 Option.none Option.none "t1",
         LedgerOp.started 1 "t2"]) 1) := by
  refine ⟨rfl, rfl, fun h => absurd h.1 (by decide)⟩

/-- C8 (amended): provided every operation touches a task that is not yet
terminal (the discipline under which the pool drives the ledger), each step
of any operation sequence advances every task's recorded status monotonically
along pending → in_progress → completed or failed, with no regression; and a
task with no ledger entry reads as pending. -/
theorem claim_C8 :
    (∀ (init : ExecutionStatus) (ops : List LedgerOp), WFOps init ops →
      ∀ (n : Int) (i : Nat) (_hi : i < ops.length),
        advances (statusOf (applyOps init (ops.take i)) n)
          (statusOf (applyOps init (ops.take (i + 1))) n)) ∧
    (∀ (st : ExecutionStatus) (n : Int), lookupTask st.tasks n = Option.none →
      statusOf st n = Json.str "pending") := by
  constructor
  · intro init ops hwf n i hi
    rw [applyOps_take_succ init ops i hi]
    exact advances_applyOp _ _ _ (hwf i hi)
  · intro st n h
    unfold statusOf
    rw [h]

/-- Closed instance of C8 (amended): marking a pending task as started. -/
theorem claim_C8_witness :
    advances
      (statusOf (applyOps (newStatus "e" "b" "w" "t0")
        ([LedgerOp.started 1 "t1"].take 0)) 1)
      (statusOf (applyOps (newStatus "e" "b" "w" "t0")
        ([LedgerOp.started 1 "t1"].take 1)) 1) :=
  claim_C8.1 (newStatus "e" "b" "w" "t0") [LedgerOp.started 1 "t1"]
    (fun i hi => by
      have h0 : i = 0 := Nat.lt_one_iff.mp hi
      subst h0
      show statusRank (statusOf (applyOps (newStatus "e" "b" "w" "t0")
        ([LedgerOp.started 1 "t1"].take 0)) 1) ≤ 1
      decide)
    1 0 (by decide)

/-! ## Verification of the scheduler (C4, C5)

Throughout, a *task set* is a task list with pairwise distinct numbers and
duplicate-free dependency lists (what `parse_epic_folder` produces), and the
amended claims additionally require that no pre-completed id is itself a task
id (see the counterexamples for what happens otherwise). -/

/-! ### Helper lemmas on the auxiliary dict structures -/

lemma dictKeys_go_mem (l : List Int) :
    ∀ acc x, x ∈ l.foldl (fun a n => if n ∈ a then a else a ++ [n]) acc ↔
      x ∈ acc ∨ x ∈ l := by
  induction l with
  | nil => intro acc x; simp
  | cons a l ih =>
    intro acc x
    rw [List.foldl_cons]
    by_cases ha : a ∈ acc
    · rw [if_pos ha, ih]
      constructor
      · rintro (h | h)
        · exact Or.inl h
        · exact Or.inr (List.mem_cons_of_mem _ h)
      · rintro (h | h)
        · exact Or.inl h
        · rcases List.mem_cons.mp h with rfl | h
          · exact Or.inl ha
          · exact Or.inr h
    · rw [if_neg ha, ih]
      simp only [List.mem_append, List.mem_singleton, List.mem_cons]
      tauto

lemma mem_dictKeys (l : List Int) (x : Int) : x ∈ dictKeys l ↔ x ∈ l := by
  rw [dictKeys, dictKeys_go_mem]
  simp

lemma dictKeys_go_eq (l : List Int) :
    ∀ acc, l.Nodup → (∀ x ∈ acc, x ∉ l) →
      l.foldl (fun a n => if n ∈ a then a else a ++ [n]) acc = acc ++ l := by
  induction l with
  | nil => intro acc _ _; simp
  | cons a l ih =>
    intro acc hl hdisj
    obtain ⟨hal, hl'⟩ := List.nodup_cons.mp hl
    rw [List.foldl_cons]
    have ha : a ∉ acc := fun h => hdisj a h (List.mem_cons_self a l)
    rw [if_neg ha, ih (acc ++ [a]) hl' ?_, List.append_assoc]
    · rfl
    · intro x hx
      rcases List.mem_append.mp hx with hx | hx
      · exact fun hxl => hdisj x hx (List.mem_cons_of_mem _ hxl)
      · rw [List.mem_singleton] at hx
        subst hx
        exact hal

lemma dictKeys_eq_of_nodup (l : List Int) (hl : l.Nodup) : dictKeys l = l := by
  rw [dictKeys, dictKeys_go_eq l [] hl (by simp)]
  rfl

/-! ### Task numbers, `depsOf` and the dependency graph -/

lemma number_injective (tasks : List TaskDefinition)
    (hnum : (tasks.map TaskDefinition.number).Nodup) :
    ∀ t ∈ tasks, ∀ t2 ∈ tasks, t.number = t2.number → t = t2 := by
  intro t ht t2 ht2 heq
  exact List.inj_on_of_nodup_map hnum ht ht2 heq

lemma find?_number_eq (tasks : List TaskDefinition)
    (hnum : (tasks.map TaskDefinition.number).Nodup)
    (t : TaskDefinition) (ht : t ∈ tasks) :
    tasks.reverse.find? (fun x => x.number == t.number) = some t := by
  have hsome : (tasks.reverse.find? (fun x => x.number == t.number)).isSome := by
    rw [List.find?_isSome]
    exact ⟨t, List.mem_reverse.mpr ht, by simp⟩
  obtain ⟨x, hx⟩ := Option.isSome_iff_exists.mp hsome
  have hxmem : x ∈ tasks := List.mem_reverse.mp (List.mem_of_find?_eq_some hx)
  have hxnum : x.number = t.number := by
    have := List.find?_some hx
    simpa using this
  rw [hx, number_injective tasks hnum x hxmem t ht hxnum]

lemma depsOf_eq (tasks : List TaskDefinition)
    (hnum : (tasks.map TaskDefinition.number).Nodup)
    (t : TaskDefinition) (ht : t ∈ tasks) :
    depsOf tasks t.number = t.dependencies := by
  rw [depsOf, find?_number_eq tasks hnum t ht]

lemma mem_build_dependency_graph (tasks : List TaskDefinition) (d m : Int) :
    m ∈ build_dependency_graph tasks d ↔
      ∃ t ∈ tasks, t.number = m ∧ d ∈ t.dependencies := by
  rw [build_dependency_graph]
  rw [List.mem_flatten]
  constructor
  · rintro ⟨l, hl, hm⟩
    obtain ⟨t, ht, rfl⟩ := List.mem_map.mp hl
    obtain ⟨x, hx, hxm⟩ := List.mem_map.mp hm
    obtain ⟨hxd, hbeq⟩ := List.mem_filter.mp hx
    have hxd2 : x = d := by simpa using hbeq
    subst hxd2
    exact ⟨t, ht, hxm, hxd⟩
  · rintro ⟨t, ht, rfl, hd⟩
    refine ⟨(t.dependencies.filter (fun x => x == d)).map (fun _ => t.number),
      List.mem_map_of_mem _ ht, ?_⟩
    exact List.mem_map.mpr ⟨d, List.mem_filter.mpr ⟨hd, by simp⟩, rfl⟩

lemma mem_graph_iff (tasks : List TaskDefinition)
    (hnum : (tasks.map TaskDefinition.number).Nodup) (d m : Int) :
    m ∈ build_dependency_graph tasks d ↔
      m ∈ tasks.map TaskDefinition.number ∧ d ∈ depsOf tasks m := by
  rw [mem_build_dependency_graph]
  constructor
  · rintro ⟨t, ht, rfl, hd⟩
    exact ⟨List.mem_map_of_mem _ ht, by rwa [depsOf_eq tasks hnum t ht]⟩
  · rintro ⟨hm, hd⟩
    obtain ⟨t, ht, rfl⟩ := List.mem_map.mp hm
    rw [depsOf_eq tasks hnum t ht] at hd
    exact ⟨t, ht, rfl, hd⟩

lemma filter_beq_of_nodup (l : List Int) (hl : l.Nodup) (d : Int) :
    l.filter (fun x => x == d) = if d ∈ l then [d] else [] := by
  induction l with
  | nil => simp
  | cons a l ih =>
    obtain ⟨hal, hl'⟩ := List.nodup_cons.mp hl
    by_cases had : a = d
    · subst had
      rw [List.filter_cons_of_pos (by simp), if_pos (List.mem_cons_self a l)]
      have hnil : l.filter (fun x => x == a) = [] := by
        rw [List.filter_eq_nil_iff]
        intro x hx
        simp only [beq_iff_eq]
        rintro rfl
        exact hal hx
      rw [hnil]
    · rw [List.filter_cons_of_neg (by simpa using had), ih hl']
      by_cases hd : d ∈ l
      · rw [if_pos hd, if_pos (List.mem_cons_of_mem _ hd)]
      · rw [if_neg hd, if_neg (by
          rw [List.mem_cons]
          rintro (rfl | h)
          · exact had rfl
          · exact hd h)]

lemma build_dependency_graph_eq (tasks : List TaskDefinition)
    (hdeps : ∀ t ∈ tasks, t.dependencies.Nodup) (d : Int) :
    build_dependency_graph tasks d =
      (tasks.filter (fun t => decide (d ∈ t.dependencies))).map TaskDefinition.number := by
  induction tasks with
  | nil => rfl
  | cons a l ih =>
    have ha := hdeps a (List.mem_cons_self a l)
    have ih' := ih (fun t ht => hdeps t (List.mem_cons_of_mem _ ht))
    rw [build_dependency_graph] at ih' ⊢
    rw [List.map_cons, List.flatten_cons, filter_beq_of_nodup _ ha d]
    by_cases hd : d ∈ a.dependencies
    · rw [if_pos hd, List.filter_cons_of_pos (by simpa using hd), List.map_cons, ih']
      rfl
    · rw [if_neg hd, List.filter_cons_of_neg (by simpa using hd), ih']
      rfl

lemma graph_nodup (tasks : List TaskDefinition)
    (hnum : (tasks.map TaskDefinition.number).Nodup)
    (hdeps : ∀ t ∈ tasks, t.dependencies.Nodup) (d : Int) :
    (build_dependency_graph tasks d).Nodup := by
  rw [build_dependency_graph_eq tasks hdeps d]
  exact List.Nodup.sublist ((List.filter_sublist _).map TaskDefinition.number) hnum

lemma build_in_degree_eq (tasks : List TaskDefinition) (pre : Finset Int) (n : Int) :
    build_in_degree tasks pre n =
      (((depsOf tasks n).filter (fun d => decide (d ∉ pre))).length : Int) := by
  rw [build_in_degree, depsOf]
  cases tasks.reverse.find? (fun t => t.number == n) <;> rfl

lemma card_nonpreDeps (tasks : List TaskDefinition) (pre : Finset Int) (n : Int)
    (h : (depsOf tasks n).Nodup) :
    ((nonpreDeps tasks pre n).card : Int) =
      (((depsOf tasks n).filter (fun d => decide (d ∉ pre))).length : Int) := by
  rw [nonpreDeps, Finset.sdiff_eq_filter]
  have h1 : (depsOf tasks n).toFinset.filter (fun d => d ∉ pre) =
      ((depsOf tasks n).filter (fun d => decide (d ∉ pre))).toFinset := by
    ext x
    simp [List.mem_filter]
  rw [h1, List.toFinset_card_of_nodup (h.filter _)]

lemma depsOf_nodup (tasks : List TaskDefinition)
    (hdeps : ∀ t ∈ tasks, t.dependencies.Nodup) (n : Int) :
    (depsOf tasks n).Nodup := by
  rw [depsOf]
  cases hf : tasks.reverse.find? (fun t => t.number == n) with
  | none => exact List.nodup_nil
  | some t =>
    exact hdeps t (List.mem_reverse.mp (List.mem_of_find?_eq_some hf))

/-! ### The inner decrement fold -/

/-- Folding `decStep` over a duplicate-free dependent list decrements each of
its members once, and appends to the next queue exactly the members whose
degree was 1 (they reach 0 on this pass). -/
lemma decStep_foldl (g : List Int) (hg : g.Nodup) :
    ∀ (deg : Int → Int) (acc : List Int),
      ((g.foldl decStep (deg, acc)).1 = fun m => if m ∈ g then deg m - 1 else deg m) ∧
      ∃ added, (g.foldl decStep (deg, acc)).2 = acc ++ added ∧ added.Nodup ∧
        ∀ m, m ∈ added ↔ m ∈ g ∧ deg m = 1 := by
  induction g with
  | nil =>
    intro deg acc
    refine ⟨funext fun m => by simp, [], by simp, List.nodup_nil, by simp⟩
  | cons x g ih =>
    intro deg acc
    obtain ⟨hx, hg'⟩ := List.nodup_cons.mp hg
    rw [List.foldl_cons]
    have hstep : decStep (deg, acc) x =
        (fun k => if k = x then deg x - 1 else deg k,
         if deg x - 1 = 0 then acc ++ [x] else acc) := rfl
    rw [hstep]
    obtain ⟨h1, added, h2, h3, h4⟩ :=
      ih hg' (fun k => if k = x then deg x - 1 else deg k)
        (if deg x - 1 = 0 then acc ++ [x] else acc)
    refine ⟨?_, (if deg x - 1 = 0 then [x] else []) ++ added, ?_, ?_, ?_⟩
    · rw [h1]
      funext m
      by_cases hm : m = x
      · subst hm
        rw [if_neg hx, if_pos rfl, if_pos (List.mem_cons_self m g)]
      · rw [if_neg hm]
        by_cases hmg : m ∈ g
        · rw [if_pos hmg, if_pos (List.mem_cons_of_mem _ hmg)]
        · rw [if_neg hmg, if_neg (by
            rw [List.mem_cons]
            rintro (rfl | h)
            · exact hm rfl
            · exact hmg h)]
    · rw [h2]
      by_cases hz : deg x - 1 = 0
      · rw [if_pos hz, if_pos hz, List.append_assoc]
      · rw [if_neg hz, if_neg hz]
        rfl
    · refine List.Nodup.append ?_ h3 ?_
      · by_cases hz : deg x - 1 = 0
        · rw [if_pos hz]
          exact List.nodup_singleton x
        · rw [if_neg hz]
          exact List.nodup_nil
      · intro m hm1 hm2
        have hadd := (h4 m).mp hm2
        by_cases hz : deg x - 1 = 0
        · rw [if_pos hz, List.mem_singleton] at hm1
          subst hm1
          exact hx hadd.1
        · rw [if_neg hz] at hm1
          exact List.not_mem_nil m hm1
    · intro m
      rw [List.mem_append, h4, List.mem_cons]
      by_cases hm : m = x
      · subst hm
        have hng : m ∉ g := hx
        constructor
        · rintro (h | ⟨h, hd⟩)
          · by_cases hz : deg m - 1 = 0
            · exact ⟨Or.inl rfl, by omega⟩
            · rw [if_neg hz] at h
              exact absurd h (List.not_mem_nil m)
          · exact absurd h hng
        · rintro ⟨-, hd⟩
          have hz : deg m - 1 = 0 := by omega
          rw [if_pos hz]
          exact Or.inl (List.mem_singleton_self m)
      · have hnx : m ∉ (if deg x - 1 = 0 then [x] else []) := by
          by_cases hz : deg x - 1 = 0
          · rw [if_pos hz, List.mem_singleton]
            exact hm
          · rw [if_neg hz]
            exact List.not_mem_nil m
        constructor
        · rintro (h | ⟨h, hd⟩)
          · exact absurd h hnx
          · rw [if_neg hm] at hd
            exact ⟨Or.inr h, hd⟩
        · rintro ⟨h | h, hd⟩
          · exact absurd h.symm (Ne.symm hm)
          · refine Or.inr ⟨h, ?_⟩
            rw [if_neg hm]
            exact hd

/-! ### Processing one level -/

lemma processOne
    (tasks : List TaskDefinition) (pre : Finset Int)
    (hnum : (tasks.map TaskDefinition.number).Nodup)
    (hdeps : ∀ t ∈ tasks, t.dependencies.Nodup)
    (hdisj : ∀ t ∈ tasks, t.number ∉ pre)
    (order q : List Int)
    (hOQnodup : (order ++ q).Nodup)
    (hOQsub : ∀ n ∈ order ++ q, n ∈ tasks.map TaskDefinition.number)
    (horderdeps : ∀ n ∈ order, ∀ x ∈ depsOf tasks n, x ∉ pre → x ∈ order)
    (hqdeps : ∀ n ∈ q, ∀ x ∈ depsOf tasks n, x ∉ pre → x ∈ order)
    (pr rest : List Int) (d : Int) (hq : q = pr ++ d :: rest)
    (acc : List Int) (deg : Int → Int)
    (hmid : MidInv tasks pre order q pr acc deg) :
    MidInv tasks pre order q (pr ++ [d])
      (((build_dependency_graph tasks d).foldl decStep (deg, acc)).2)
      (((build_dependency_graph tasks d).foldl decStep (deg, acc)).1) := by
  have hgnodup := graph_nodup tasks hnum hdeps d
  obtain ⟨h1, added, h2, h3, h4⟩ := decStep_foldl _ hgnodup deg acc
  have hdq : d ∈ q := by
    rw [hq]
    exact List.mem_append_right pr (List.mem_cons_self d rest)
  have hdnums : d ∈ tasks.map TaskDefinition.number :=
    hOQsub d (List.mem_append_right order hdq)
  have hdnotpre : d ∉ pre := by
    obtain ⟨t, ht, rfl⟩ := List.mem_map.mp hdnums
    exact hdisj t ht
  have hdfresh : d ∉ order ++ pr := by
    have hnd : ((order ++ pr) ++ d :: rest).Nodup := by
      rw [List.append_assoc, ← hq]
      exact hOQnodup
    intro hmem
    have hdis := (List.nodup_append.mp hnd).2.2
    exact hdis hmem (List.mem_cons_self d rest)
  have hO2 : ∀ x : Int, x ∈ (order ++ (pr ++ [d])).toFinset ↔
      x = d ∨ x ∈ (order ++ pr).toFinset := by
    intro x
    simp only [List.mem_toFinset, List.mem_append, List.mem_singleton]
    tauto
  have hdeg2 : ∀ n ∈ tasks.map TaskDefinition.number,
      ((build_dependency_graph tasks d).foldl decStep (deg, acc)).1 n =
        ((nonpreDeps tasks pre n \ (order ++ (pr ++ [d])).toFinset).card : Int) := by
    intro n hn
    rw [h1]
    by_cases hng : n ∈ build_dependency_graph tasks d
    · simp only [if_pos hng]
      have hdn : d ∈ depsOf tasks n := ((mem_graph_iff tasks hnum d n).mp hng).2
      have hdinA : d ∈ nonpreDeps tasks pre n := by
        rw [nonpreDeps, Finset.mem_sdiff, List.mem_toFinset]
        exact ⟨hdn, hdnotpre⟩
      have hdnotO : d ∉ (order ++ pr).toFinset := by
        rw [List.mem_toFinset]
        exact hdfresh
      have hdmem : d ∈ nonpreDeps tasks pre n \ (order ++ pr).toFinset :=
        Finset.mem_sdiff.mpr ⟨hdinA, hdnotO⟩
      have key : nonpreDeps tasks pre n \ (order ++ (pr ++ [d])).toFinset =
          (nonpreDeps tasks pre n \ (order ++ pr).toFinset).erase d := by
        ext x
        rw [Finset.mem_erase, Finset.mem_sdiff, Finset.mem_sdiff, hO2]
        tauto
      have hpos : 0 < (nonpreDeps tasks pre n \ (order ++ pr).toFinset).card :=
        Finset.card_pos.mpr ⟨d, hdmem⟩
      rw [hmid.hdeg n hn, key, Finset.card_erase_of_mem hdmem]
      omega
    · simp only [if_neg hng]
      have hdn : d ∉ depsOf tasks n := fun hdn =>
        hng ((mem_graph_iff tasks hnum d n).mpr ⟨hn, hdn⟩)
      have key : nonpreDeps tasks pre n \ (order ++ (pr ++ [d])).toFinset =
          nonpreDeps tasks pre n \ (order ++ pr).toFinset := by
        ext x
        rw [Finset.mem_sdiff, Finset.mem_sdiff, hO2]
        have hxne : x ∈ nonpreDeps tasks pre n → x ≠ d := by
          rintro hx rfl
          rw [nonpreDeps, Finset.mem_sdiff, List.mem_toFinset] at hx
          exact hdn hx.1
        tauto
      rw [hmid.hdeg n hn, key]
  have degzero : ∀ m ∈ tasks.map TaskDefinition.number,
      (∀ x ∈ depsOf tasks m, x ∉ pre → x ∈ order ++ pr) → deg m = 0 := by
    intro m hm hsub2
    rw [hmid.hdeg m hm]
    have hempty : nonpreDeps tasks pre m \ (order ++ pr).toFinset = ∅ := by
      rw [Finset.sdiff_eq_empty_iff_subset]
      intro x hx
      rw [nonpreDeps, Finset.mem_sdiff, List.mem_toFinset] at hx
      rw [List.mem_toFinset]
      exact hsub2 x hx.1 hx.2
    rw [hempty, Finset.card_empty]
    rfl
  have haddfresh : ∀ m ∈ added, m ∉ order ++ q ∧ m ∉ acc := by
    intro m hm
    obtain ⟨hmg, hm1⟩ := (h4 m).mp hm
    have hmnums : m ∈ tasks.map TaskDefinition.number :=
      ((mem_graph_iff tasks hnum d m).mp hmg).1
    refine ⟨?_, ?_⟩
    · intro hmem
      rcases List.mem_append.mp hmem with hmem | hmem
      · have := degzero m hmnums (fun x hx hxp =>
          List.mem_append_left pr (horderdeps m hmem x hx hxp))
        omega
      · have := degzero m hmnums (fun x hx hxp =>
          List.mem_append_left pr (hqdeps m hmem x hx hxp))
        omega
    · intro hmem
      have := degzero m hmnums (hmid.hacc_deps m hmem)
      omega
  refine ⟨hdeg2, ?_, ?_, ?_, ?_, ?_⟩
  · rw [h2]
    refine List.Nodup.append hmid.hacc_nodup h3 ?_
    intro m hma hmadd
    exact (haddfresh m hmadd).2 hma
  · rw [h2]
    intro n hn
    rcases List.mem_append.mp hn with hn | hn
    · exact hmid.hacc_nums n hn
    · exact ((mem_graph_iff tasks hnum d n).mp ((h4 n).mp hn).1).1
  · rw [h2]
    intro n hn
    rcases List.mem_append.mp hn with hn | hn
    · exact hmid.hacc_fresh n hn
    · exact (haddfresh n hn).1
  · rw [h2]
    intro n hn
    rcases List.mem_append.mp hn with hn | hn
    · intro x hx hxp
      rcases List.mem_append.mp (hmid.hacc_deps n hn x hx hxp) with h | h
      · exact List.mem_append_left _ h
      · exact List.mem_append_right _ (List.mem_append_left _ h)
    · obtain ⟨hng, hn1⟩ := (h4 n).mp hn
      have hnnums := ((mem_graph_iff tasks hnum d n).mp hng).1
      have hz : ((build_dependency_graph tasks d).foldl decStep (deg, acc)).1 n = 0 := by
        rw [h1]
        simp only [if_pos hng]
        omega
      rw [hdeg2 n hnnums] at hz
      have hcard : (nonpreDeps tasks pre n \ (order ++ (pr ++ [d])).toFinset).card = 0 := by
        omega
      have hsubset := Finset.sdiff_eq_empty_iff_subset.mp (Finset.card_eq_zero.mp hcard)
      intro x hx hxp
      have hxA : x ∈ nonpreDeps tasks pre n := by
        rw [nonpreDeps, Finset.mem_sdiff, List.mem_toFinset]
        exact ⟨hx, hxp⟩
      have hfin := hsubset hxA
      rw [List.mem_toFinset] at hfin
      exact hfin
  · rw [h2]
    intro n hn hnfresh hsub2
    by_cases hall : ∀ x ∈ depsOf tasks n, x ∉ pre → x ∈ order ++ pr
    · exact List.mem_append_left _ (hmid.hacc_complete n hn hnfresh hall)
    · push_neg at hall
      obtain ⟨x, hx, hxp, hxnot⟩ := hall
      have hxd : x = d := by
        rcases List.mem_append.mp (hsub2 x hx hxp) with h | h
        · exact absurd (List.mem_append_left pr h) hxnot
        · rcases List.mem_append.mp h with h | h
          · exact absurd (List.mem_append_right order h) hxnot
          · exact List.mem_singleton.mp h
      subst hxd
      have hng : n ∈ build_dependency_graph tasks x :=
        (mem_graph_iff tasks hnum x n).mpr ⟨hn, hx⟩
      have hdmem : x ∈ nonpreDeps tasks pre n \ (order ++ pr).toFinset := by
        rw [Finset.mem_sdiff, nonpreDeps, Finset.mem_sdiff, List.mem_toFinset,
          List.mem_toFinset]
        exact ⟨⟨hx, hxp⟩, hxnot⟩
      have hle : nonpreDeps tasks pre n \ (order ++ pr).toFinset ⊆ {x} := by
        intro y hy
        rw [Finset.mem_sdiff, nonpreDeps, Finset.mem_sdiff, List.mem_toFinset,
          List.mem_toFinset] at hy
        rw [Finset.mem_singleton]
        have hynot : y ∉ order ++ pr := fun hcon => hy.2 hcon
        rcases List.mem_append.mp (hsub2 y hy.1.1 hy.1.2) with h | h
        · exact absurd (List.mem_append_left pr h) hynot
        · rcases List.mem_append.mp h with h | h
          · exact absurd (List.mem_append_right order h) hynot
          · exact List.mem_singleton.mp h
      have hcard1 : (nonpreDeps tasks pre n \ (order ++ pr).toFinset).card = 1 := by
        have hle2 := Finset.card_le_card hle
        rw [Finset.card_singleton] at hle2
        have hpos : 0 < (nonpreDeps tasks pre n \ (order ++ pr).toFinset).card :=
          Finset.card_pos.mpr ⟨x, hdmem⟩
        omega
      have hdegn : deg n = 1 := by
        rw [hmid.hdeg n hn, hcard1]
        rfl
      exact List.mem_append_right _ ((h4 n).mpr ⟨hng, hdegn⟩)

lemma processRest
    (tasks : List TaskDefinition) (pre : Finset Int)
    (hnum : (tasks.map TaskDefinition.number).Nodup)
    (hdeps : ∀ t ∈ tasks, t.dependencies.Nodup)
    (hdisj : ∀ t ∈ tasks, t.number ∉ pre)
    (order q : List Int)
    (hOQnodup : (order ++ q).Nodup)
    (hOQsub : ∀ n ∈ order ++ q, n ∈ tasks.map TaskDefinition.number)
    (horderdeps : ∀ n ∈ order, ∀ x ∈ depsOf tasks n, x ∉ pre → x ∈ order)
    (hqdeps : ∀ n ∈ q, ∀ x ∈ depsOf tasks n, x ∉ pre → x ∈ order) :
    ∀ (rest pr acc : List Int) (deg : Int → Int), q = pr ++ rest →
      MidInv tasks pre order q pr acc deg →
      MidInv tasks pre order q (pr ++ rest)
        ((rest.foldl (fun p n => ((build_dependency_graph tasks) n).foldl decStep p)
          (deg, acc)).2)
        ((rest.foldl (fun p n => ((build_dependency_graph tasks) n).foldl decStep p)
          (deg, acc)).1) := by
  intro rest
  induction rest with
  | nil =>
    intro pr acc deg hq hmid
    rw [List.foldl_nil, List.append_nil]
    exact hmid
  | cons d rest ih =>
    intro pr acc deg hq hmid
    rw [List.foldl_cons]
    have hstep := processOne tasks pre hnum hdeps hdisj order q hOQnodup hOQsub
      horderdeps hqdeps pr rest d hq acc deg hmid
    have hq2 : q = (pr ++ [d]) ++ rest := by
      rw [hq, List.append_assoc]
      rfl
    have := ih (pr ++ [d])
      (((build_dependency_graph tasks d).foldl decStep (deg, acc)).2)
      (((build_dependency_graph tasks d).foldl decStep (deg, acc)).1)
      hq2 hstep
    rw [List.append_assoc] at this
    simpa using this

/-- One iteration of the Kahn loop preserves the invariant. -/
lemma kahn_level_step
    (tasks : List TaskDefinition) (pre : Finset Int)
    (hnum : (tasks.map TaskDefinition.number).Nodup)
    (hdeps : ∀ t ∈ tasks, t.dependencies.Nodup)
    (hdisj : ∀ t ∈ tasks, t.number ∉ pre)
    (levels : List (List Int)) (order q : List Int) (deg : Int → Int)
    (inv : KahnInv tasks pre levels order q deg) :
    KahnInv tasks pre (levels ++ [q]) (order ++ q)
      ((processLevel (build_dependency_graph tasks) q deg).2)
      ((processLevel (build_dependency_graph tasks) q deg).1) := by
  have horderdeps : ∀ n ∈ order, ∀ x ∈ depsOf tasks n, x ∉ pre → x ∈ order := by
    intro n hn x hx hxp
    rw [inv.horder] at hn
    obtain ⟨l, hl, hnl⟩ := List.mem_flatten.mp hn
    obtain ⟨idx, rfl⟩ := List.mem_iff_get.mp hl
    have := inv.hlevels idx.1 idx.2 n hnl x hx hxp
    rw [inv.horder]
    obtain ⟨l2, hl2, hxl2⟩ := List.mem_flatten.mp this
    exact List.mem_flatten.mpr ⟨l2, (List.take_subset idx.1 levels) hl2, hxl2⟩
  have hmid0 : MidInv tasks pre order q [] [] deg := by
    refine ⟨?_, List.nodup_nil, ?_, ?_, ?_, ?_⟩
    · intro n hn
      rw [inv.hdeg n hn, List.append_nil]
    · intro n hn
      exact absurd hn (List.not_mem_nil n)
    · intro n hn
      exact absurd hn (List.not_mem_nil n)
    · intro n hn
      exact absurd hn (List.not_mem_nil n)
    · intro n hn hnfresh hsub2
      rw [List.append_nil] at hsub2
      exact absurd (inv.hcomplete n hn hsub2) hnfresh
  have hmid := processRest tasks pre hnum hdeps hdisj order q inv.hnodup inv.hsub
    horderdeps inv.hqueue q [] [] deg rfl hmid0
  rw [List.nil_append] at hmid
  have hproc : processLevel (build_dependency_graph tasks) q deg =
      (q.foldl (fun p n => ((build_dependency_graph tasks) n).foldl decStep p)
        (deg, [])) := rfl
  rw [hproc]
  refine ⟨?_, ?_, ?_, ?_, ?_, ?_, ?_⟩
  · rw [List.flatten_append, inv.horder]
    simp
  · refine List.Nodup.append inv.hnodup hmid.hacc_nodup ?_
    intro m hm hmacc
    exact hmid.hacc_fresh m hmacc hm
  · intro n hn
    rcases List.mem_append.mp hn with hn | hn
    · exact inv.hsub n hn
    · exact hmid.hacc_nums n hn
  · exact hmid.hdeg
  · intro i hi n hn x hx hxp
    rw [List.length_append, List.length_singleton] at hi
    by_cases hlt : i < levels.length
    · have hget : (levels ++ [q]).get ⟨i, by rw [List.length_append]; omega⟩ =
          levels.get ⟨i, hlt⟩ := by
        rw [List.get_eq_getElem, List.get_eq_getElem, List.getElem_append_left]
      rw [hget] at hn
      have := inv.hlevels i hlt n hn x hx hxp
      rw [List.take_append_of_le_length (by omega)]
      exact this
    · have hieq : i = levels.length := by omega
      subst hieq
      have hget : (levels ++ [q]).get ⟨levels.length, by simp⟩ = q := by
        simp
      rw [hget] at hn
      have := inv.hqueue n hn x hx hxp
      rw [inv.horder] at this
      rw [List.take_append_of_le_length (le_refl _), List.take_length]
      exact this
  · intro n hn x hx hxp
    exact hmid.hacc_deps n hn x hx hxp
  · intro n hn hdepsin
    by_cases hmem : n ∈ order ++ q
    · exact List.mem_append_left _ hmem
    · exact List.mem_append_right _ (hmid.hacc_complete n hn hmem hdepsin)

/-- The invariant holds for the level-0 seed queue. -/
lemma kahn_init
    (tasks : List TaskDefinition) (pre : Finset Int)
    (hnum : (tasks.map TaskDefinition.number).Nodup)
    (hdeps : ∀ t ∈ tasks, t.dependencies.Nodup)
    (_hdisj : ∀ t ∈ tasks, t.number ∉ pre) :
    KahnInv tasks pre [] []
      ((dictKeys (tasks.map (fun t => t.number))).filter
        (fun n => build_in_degree tasks pre n == 0))
      (build_in_degree tasks pre) := by
  have hkeys : dictKeys (tasks.map (fun t => t.number)) =
      tasks.map TaskDefinition.number := dictKeys_eq_of_nodup _ hnum
  have hcardeq : ∀ n : Int, (build_in_degree tasks pre n) =
      ((nonpreDeps tasks pre n).card : Int) := by
    intro n
    rw [build_in_degree_eq, ← card_nonpreDeps tasks pre n (depsOf_nodup tasks hdeps n)]
  refine ⟨rfl, ?_, ?_, ?_, ?_, ?_, ?_⟩
  · rw [List.nil_append, hkeys]
    exact hnum.filter _
  · intro n hn
    rw [List.nil_append, List.mem_filter, hkeys] at hn
    exact hn.1
  · intro n hn
    rw [hcardeq n]
    congr 1
    rw [List.toFinset_nil, Finset.sdiff_empty]
  · intro i hi
    exact absurd hi (by simp)
  · intro n hn x hx hxp
    rw [List.mem_filter] at hn
    have hb : build_in_degree tasks pre n = 0 := by simpa using hn.2
    rw [hcardeq n] at hb
    have hxA : x ∈ nonpreDeps tasks pre n := by
      rw [nonpreDeps, Finset.mem_sdiff, List.mem_toFinset]
      exact ⟨hx, hxp⟩
    have hpos : 0 < (nonpreDeps tasks pre n).card := Finset.card_pos.mpr ⟨x, hxA⟩
    exfalso
    omega
  · intro n hn hsub2
    rw [List.nil_append, List.mem_filter, hkeys]
    refine ⟨hn, ?_⟩
    have hempty : nonpreDeps tasks pre n = ∅ := by
      rw [Finset.eq_empty_iff_forall_not_mem]
      intro x hxA
      rw [nonpreDeps, Finset.mem_sdiff, List.mem_toFinset] at hxA
      exact absurd (hsub2 x hxA.1 hxA.2) (List.not_mem_nil x)
    have : build_in_degree tasks pre n = 0 := by
      rw [hcardeq n, hempty, Finset.card_empty]
      rfl
    simpa using this

/-- Running the Kahn loop from an invariant state with enough fuel empties
the queue and yields an invariant state with no queue left. -/
lemma kahnLoop_spec
    (tasks : List TaskDefinition) (pre : Finset Int)
    (hnum : (tasks.map TaskDefinition.number).Nodup)
    (hdeps : ∀ t ∈ tasks, t.dependencies.Nodup)
    (hdisj : ∀ t ∈ tasks, t.number ∉ pre) :
    ∀ (fuel : Nat) (queue : List Int) (deg : Int → Int) (levels : List (List Int))
      (order : List Int),
      KahnInv tasks pre levels order queue deg →
      tasks.length + 1 ≤ fuel + order.length →
      (kahnLoop (build_dependency_graph tasks) fuel queue deg levels order).2.2 = true ∧
      ∃ deg2, KahnInv tasks pre
        (kahnLoop (build_dependency_graph tasks) fuel queue deg levels order).1
        (kahnLoop (build_dependency_graph tasks) fuel queue deg levels order).2.1
        [] deg2 := by
  intro fuel
  induction fuel with
  | zero =>
    intro queue deg levels order inv hbound
    have hnodup : order.Nodup := (List.nodup_append.mp inv.hnodup).1
    have hsubset : order ⊆ tasks.map TaskDefinition.number := fun x hx =>
      inv.hsub x (List.mem_append_left _ hx)
    have hlen : order.length ≤ tasks.length := by
      have h := (List.subperm_of_subset hnodup hsubset).length_le
      rwa [List.length_map] at h
    omega
  | succ fuel ih =>
    intro queue deg levels order inv hbound
    cases queue with
    | nil =>
      exact ⟨rfl, deg, inv⟩
    | cons q qs =>
      have hstep := kahn_level_step tasks pre hnum hdeps hdisj levels order (q :: qs)
        deg inv
      have heq : kahnLoop (build_dependency_graph tasks) (fuel + 1) (q :: qs) deg
          levels order =
        kahnLoop (build_dependency_graph tasks) fuel
          ((processLevel (build_dependency_graph tasks) (q :: qs) deg).2)
          ((processLevel (build_dependency_graph tasks) (q :: qs) deg).1)
          (levels ++ [q :: qs]) (order ++ q :: qs) := rfl
      rw [heq]
      refine ih _ _ _ _ hstep ?_
      rw [List.length_append, List.length_cons]
      omega

/-- What `create_execution_plan` computes on a nonempty task set, in terms of
an invariant-satisfying final loop state. -/
lemma create_spec
    (tasks : List TaskDefinition) (pre : Finset Int)
    (hnum : (tasks.map TaskDefinition.number).Nodup)
    (hdeps : ∀ t ∈ tasks, t.dependencies.Nodup)
    (hdisj : ∀ t ∈ tasks, t.number ∉ pre)
    (hne : tasks ≠ []) :
    ∃ (levels : List (List Int)) (order : List Int) (deg2 : Int → Int),
      KahnInv tasks pre levels order [] deg2 ∧
      create_execution_plan tasks pre =
        (if order.length ≠ tasks.length then
          Except.error ((tasks.map (fun t => t.number)).toFinset \ order.toFinset)
        else
          Except.ok ⟨levels, order, tasks.map (fun t => (t.number, t.dependencies))⟩) := by
  obtain ⟨hfin, deg2, hinv⟩ := kahnLoop_spec tasks pre hnum hdeps hdisj
    (tasks.length + 1)
    ((dictKeys (tasks.map (fun t => t.number))).filter
      (fun n => build_in_degree tasks pre n == 0))
    (build_in_degree tasks pre) [] []
    (kahn_init tasks pre hnum hdeps hdisj) (by simp)
  refine ⟨_, _, deg2, hinv, ?_⟩
  rw [create_execution_plan, if_neg (by simpa using hne)]

/-- Everything placed into the levels is resolvable. -/
lemma order_resolvable
    (tasks : List TaskDefinition) (pre : Finset Int)
    (hnum : (tasks.map TaskDefinition.number).Nodup)
    (levels : List (List Int)) (order : List Int) (deg2 : Int → Int)
    (hinv : KahnInv tasks pre levels order [] deg2) :
    ∀ n ∈ order, Resolvable tasks pre n := by
  have key : ∀ (i : Nat), ∀ n ∈ (levels.take i).flatten, Resolvable tasks pre n := by
    intro i
    induction i with
    | zero => intro n hn; simp at hn
    | succ i ih =>
      intro n hn
      rw [List.take_succ, List.flatten_append, List.mem_append] at hn
      rcases hn with hn | hn
      · exact ih n hn
      · by_cases hlt : i < levels.length
        · rw [List.getElem?_eq_getElem hlt] at hn
          simp only [Option.toList_some, List.flatten_cons, List.flatten_nil,
            List.append_nil] at hn
          have hnord : n ∈ order := by
            rw [hinv.horder]
            exact List.mem_flatten.mpr ⟨levels[i], List.getElem_mem hlt, hn⟩
          have hnn : n ∈ tasks.map TaskDefinition.number :=
            hinv.hsub n (List.mem_append_left _ hnord)
          obtain ⟨t, ht, hteq⟩ := List.mem_map.mp hnn
          rw [← hteq]
          refine Resolvable.step t ht ?_
          intro x hx hxp
          have hx2 : x ∈ depsOf tasks n := by
            rw [← hteq, depsOf_eq tasks hnum t ht]
            exact hx
          have hmem : n ∈ levels.get ⟨i, hlt⟩ := by
            rw [List.get_eq_getElem]
            exact hn
          exact ih x (hinv.hlevels i hlt n hmem x hx2 hxp)
        · rw [List.getElem?_eq_none (by omega)] at hn
          simp at hn
  intro n hn
  rw [hinv.horder] at hn
  refine key levels.length n ?_
  rw [List.take_length]
  exact hn

/-- Every resolvable task gets placed. -/
lemma resolvable_in_order
    (tasks : List TaskDefinition) (pre : Finset Int)
    (hnum : (tasks.map TaskDefinition.number).Nodup)
    (levels : List (List Int)) (order : List Int) (deg2 : Int → Int)
    (hinv : KahnInv tasks pre levels order [] deg2) :
    ∀ n, Resolvable tasks pre n → n ∈ order := by
  intro n hres
  induction hres with
  | step t ht h ihh =>
    have hn : t.number ∈ tasks.map TaskDefinition.number := List.mem_map_of_mem _ ht
    have hres2 := hinv.hcomplete t.number hn ?_
    · simpa using hres2
    · intro x hx hxp
      rw [depsOf_eq tasks hnum t ht] at hx
      exact ihh x hx hxp

/-- Inversion for `Resolvable` at an arbitrary id. -/
lemma resolvable_inv {tasks : List TaskDefinition} {pre : Finset Int} {n : Int}
    (h : Resolvable tasks pre n) :
    ∃ t ∈ tasks, t.number = n ∧
      ∀ d ∈ t.dependencies, d ∉ pre → Resolvable tasks pre d := by
  cases h with
  | step t ht hh => exact ⟨t, ht, rfl, hh⟩

/-- In the cyclic two-task set nothing is resolvable. -/
lemma cyc_not_resolvable :
    ∀ n, ¬ Resolvable [⟨1, [2]⟩, ⟨2, [1]⟩] (∅ : Finset Int) n := by
  intro n hres
  induction hres with
  | step t ht h ihh =>
    rcases List.mem_cons.mp ht with rfl | ht2
    · exact ihh 2 (by simp) (by simp)
    · rcases List.mem_cons.mp ht2 with rfl | ht3
      · exact ihh 1 (by simp) (by simp)
      · exact absurd ht3 (List.not_mem_nil t)

/-- C5 (amended): for a task set with distinct ids, duplicate-free dependency
lists, and no pre-completed id among the task ids, whenever some task is not
resolvable `create_execution_plan` raises, carrying exactly the ids of the
unresolvable tasks and returning no plan; in particular the cycle
`{1 ↦ [2], 2 ↦ [1]}` yields the error set `{1, 2}`.  (When a pre-completed id
is itself a task id the error can fail to be raised at all, see the
counterexample of C4 and the C5 counterexample.) -/
theorem claim_C5 :
    (∀ (tasks : List TaskDefinition) (pre : Finset Int),
      (tasks.map TaskDefinition.number).Nodup →
      (∀ t ∈ tasks, t.dependencies.Nodup) →
      (∀ t ∈ tasks, t.number ∉ pre) →
      (∃ t ∈ tasks, ¬ Resolvable tasks pre t.number) →
      ∃ bad, create_execution_plan tasks pre = .error bad ∧
        ∀ n : Int, n ∈ bad ↔
          n ∈ tasks.map TaskDefinition.number ∧ ¬ Resolvable tasks pre n) ∧
    create_execution_plan [⟨1, [2]⟩, ⟨2, [1]⟩] ∅ = .error {1, 2} := by
  constructor
  · rintro tasks pre hnum hdeps hdisj ⟨t0, ht0, hres0⟩
    have hne : tasks ≠ [] := by
      rintro rfl
      exact absurd ht0 (List.not_mem_nil t0)
    obtain ⟨levels, order, deg2, hinv, hcreate⟩ :=
      create_spec tasks pre hnum hdeps hdisj hne
    have hordres := order_resolvable tasks pre hnum levels order deg2 hinv
    have hresord := resolvable_in_order tasks pre hnum levels order deg2 hinv
    have hnodup : order.Nodup := by simpa using hinv.hnodup
    have hsubset : order ⊆ tasks.map TaskDefinition.number := fun x hx =>
      hinv.hsub x (List.mem_append_left _ hx)
    have hlendiff : order.length ≠ tasks.length := by
      intro hlen
      have hperm : List.Perm order (tasks.map TaskDefinition.number) :=
        (List.subperm_of_subset hnodup hsubset).perm_of_length_le
          (by rw [List.length_map]; omega)
      have hmem : t0.number ∈ order :=
        hperm.mem_iff.mpr (List.mem_map_of_mem _ ht0)
      exact hres0 (hordres _ hmem)
    rw [hcreate, if_pos hlendiff]
    refine ⟨_, rfl, ?_⟩
    intro n
    rw [Finset.mem_sdiff, List.mem_toFinset, List.mem_toFinset]
    constructor
    · rintro ⟨hn, hnord⟩
      exact ⟨hn, fun hres => hnord (hresord n hres)⟩
    · rintro ⟨hn, hnres⟩
      exact ⟨hn, fun hord => hnres (hordres n hord)⟩
  · decide

/-- Closed instance of C5 (amended) on the two-task cycle. -/
theorem claim_C5_witness :
    ∃ bad, create_execution_plan [⟨1, [2]⟩, ⟨2, [1]⟩] (∅ : Finset Int) = .error bad ∧
      ∀ n : Int, n ∈ bad ↔
        n ∈ ([⟨1, [2]⟩, ⟨2, [1]⟩] : List TaskDefinition).map TaskDefinition.number ∧
          ¬ Resolvable [⟨1, [2]⟩, ⟨2, [1]⟩] ∅ n :=
  claim_C5.1 [⟨1, [2]⟩, ⟨2, [1]⟩] ∅ (by decide) (by decide) (by decide)
    ⟨⟨1, [2]⟩, by decide, cyc_not_resolvable 1⟩

/-- C5 counterexample to the claim as stated: in `{1 ↦ [], 2 ↦ [1, 3]}` with
`pre_completed = {1}`, dependency 3 lies outside both the task set and the
pre-completed set — the graph cannot be fully ordered — yet
`create_execution_plan` returns a plan without raising: the decrement coming
from pre-completed task 1 masks the unresolvable dependency. -/
theorem claim_C5_counterexample :
    ¬ Resolvable [⟨1, []⟩, ⟨2, [1, 3]⟩] ({1} : Finset Int) 2 ∧
    create_execution_plan [⟨1, []⟩, ⟨2, [1, 3]⟩] {1} =
      .ok ⟨[[1], [2]], [1, 2], [(1, []), (2, [1, 3])]⟩ := by
  constructor
  · intro hres
    obtain ⟨t, ht, htn, h⟩ := resolvable_inv hres
    rcases List.mem_cons.mp ht with rfl | ht2
    · exact absurd htn (by decide)
    · rcases List.mem_cons.mp ht2 with rfl | ht3
      · have h3 := h 3 (by decide) (by decide)
        obtain ⟨t2, ht2b, htn2, h2⟩ := resolvable_inv h3
        rcases List.mem_cons.mp ht2b with rfl | htx
        · exact absurd htn2 (by decide)
        · rcases List.mem_cons.mp htx with rfl | hty
          · exact absurd htn2 (by decide)
          · exact absurd hty (List.not_mem_nil t2)
      · exact absurd ht3 (List.not_mem_nil t)
  · decide

/-- C4 (amended): for a task set with distinct ids, duplicate-free dependency
lists, and no pre-completed id among the task ids, every dependency that is
not pre-completed appears in a strictly earlier level of the returned plan
than the (unique) level of the dependent task.  (Dependencies that are
pre-completed need not appear at all, and when a pre-completed id is a task
id the strict ordering can fail, see the counterexample.) -/
theorem claim_C4 :
    ∀ (tasks : List TaskDefinition) (pre : Finset Int) (plan : ExecutionPlan),
      (tasks.map TaskDefinition.number).Nodup →
      (∀ t ∈ tasks, t.dependencies.Nodup) →
      (∀ t ∈ tasks, t.number ∉ pre) →
      create_execution_plan tasks pre = .ok plan →
      ∀ t ∈ tasks, ∀ d ∈ t.dependencies, d ∉ pre →
        ∃ (i j : Nat) (hi : i < plan.levels.length) (hj : j < plan.levels.length),
          j < i ∧ t.number ∈ plan.levels.get ⟨i, hi⟩ ∧ d ∈ plan.levels.get ⟨j, hj⟩ ∧
          (∀ (i2 : Nat) (hi2 : i2 < plan.levels.length),
            t.number ∈ plan.levels.get ⟨i2, hi2⟩ → i2 = i) ∧
          (∀ (j2 : Nat) (hj2 : j2 < plan.levels.length),
            d ∈ plan.levels.get ⟨j2, hj2⟩ → j2 = j) := by
  intro tasks pre plan hnum hdeps hdisj hok t ht d hd hdp
  have hne : tasks ≠ [] := by
    rintro rfl
    exact absurd ht (List.not_mem_nil t)
  obtain ⟨levels, order, deg2, hinv, hcreate⟩ :=
    create_spec tasks pre hnum hdeps hdisj hne
  rw [hcreate] at hok
  by_cases hlen : order.length ≠ tasks.length
  · rw [if_pos hlen] at hok
    exact absurd hok (by simp)
  · rw [if_neg hlen] at hok
    obtain rfl := Except.ok.inj hok
    push_neg at hlen
    have hnodup : order.Nodup := by simpa using hinv.hnodup
    have hsubset : order ⊆ tasks.map TaskDefinition.number := fun x hx =>
      hinv.hsub x (List.mem_append_left _ hx)
    have hperm : List.Perm order (tasks.map TaskDefinition.number) :=
      (List.subperm_of_subset hnodup hsubset).perm_of_length_le
        (by rw [List.length_map]; omega)
    have hflat_nodup : levels.flatten.Nodup := by
      rw [← hinv.horder]
      exact hnodup
    obtain ⟨-, hpairwise⟩ := List.nodup_flatten.mp hflat_nodup
    have huniq : ∀ (x : Int) (i1 i2 : Nat) (h1 : i1 < levels.length)
        (h2 : i2 < levels.length),
        x ∈ levels.get ⟨i1, h1⟩ → x ∈ levels.get ⟨i2, h2⟩ → i1 = i2 := by
      intro x i1 i2 h1 h2 hx1 hx2
      by_contra hne12
      rcases Nat.lt_or_ge i1 i2 with hlt | hge
      · have hdis := List.pairwise_iff_getElem.mp hpairwise i1 i2 h1 h2 hlt
        exact hdis (by simpa using hx1) (by simpa using hx2)
      · have hlt2 : i2 < i1 := by omega
        have hdis := List.pairwise_iff_getElem.mp hpairwise i2 i1 h2 h1 hlt2
        exact hdis (by simpa using hx2) (by simpa using hx1)
    have hmemord : t.number ∈ order :=
      hperm.mem_iff.mpr (List.mem_map_of_mem _ ht)
    have hmemflat : t.number ∈ levels.flatten := by
      rw [← hinv.horder]
      exact hmemord
    obtain ⟨l, hl, hmeml⟩ := List.mem_flatten.mp hmemflat
    obtain ⟨idx, rfl⟩ := List.mem_iff_get.mp hl
    have hd2 : d ∈ depsOf tasks t.number := by
      rw [depsOf_eq tasks hnum t ht]
      exact hd
    have hdtake := hinv.hlevels idx.1 idx.2 t.number hmeml d hd2 hdp
    obtain ⟨l2, hl2, hmeml2⟩ := List.mem_flatten.mp hdtake
    obtain ⟨jdx, rfl⟩ := List.mem_iff_get.mp hl2
    obtain ⟨jv, hjv⟩ := jdx
    have hjlen2 := hjv
    rw [List.length_take] at hjlen2
    have hjlt : jv < idx.1 := (lt_min_iff.mp hjlen2).1
    have hjlen : jv < levels.length := lt_trans hjlt idx.2
    have hgetj : (levels.take idx.1).get ⟨jv, hjv⟩ = levels.get ⟨jv, hjlen⟩ := by
      rw [List.get_eq_getElem, List.get_eq_getElem, List.getElem_take]
    refine ⟨idx.1, jv, idx.2, hjlen, hjlt, hmeml, ?_, ?_, ?_⟩
    · rw [← hgetj]
      exact hmeml2
    · intro i2 hi2 hmem2
      exact huniq t.number i2 idx.1 hi2 idx.2 hmem2 hmeml
    · intro j2 hj2 hmem2
      refine huniq d j2 jv hj2 hjlen hmem2 ?_
      rw [← hgetj]
      exact hmeml2

/-- Closed instance of C4 (amended) on the chain 1 ← 2. -/
theorem claim_C4_witness :
    ∃ (i j : Nat) (hi : i < chain2Plan.levels.length)
      (hj : j < chain2Plan.levels.length),
      j < i ∧ (2 : Int) ∈ chain2Plan.levels.get ⟨i, hi⟩ ∧
        (1 : Int) ∈ chain2Plan.levels.get ⟨j, hj⟩ ∧
      (∀ (i2 : Nat) (hi2 : i2 < chain2Plan.levels.length),
        (2 : Int) ∈ chain2Plan.levels.get ⟨i2, hi2⟩ → i2 = i) ∧
      (∀ (j2 : Nat) (hj2 : j2 < chain2Plan.levels.length),
        (1 : Int) ∈ chain2Plan.levels.get ⟨j2, hj2⟩ → j2 = j) :=
  claim_C4 chain2 ∅ chain2Plan (by decide) (by decide) (by decide) (by rfl)
    ⟨2, [1]⟩ (by decide) 1 (by decide) (by decide)

/-- C4 counterexample to the claim as stated: in `{1 ↦ [2], 2 ↦ []}` with
`pre_completed = {2}` — acyclic, every dependency resolvable — the plan has a
single level containing both tasks, so task 1's dependency 2 does not appear
in a strictly earlier level than task 1. -/
theorem claim_C4_counterexample :
    ∃ plan, create_execution_plan [⟨1, [2]⟩, ⟨2, []⟩] {2} = .ok plan ∧
      plan.levels = [[1, 2]] ∧
      Resolvable [⟨1, [2]⟩, ⟨2, []⟩] {2} 1 ∧
      Resolvable [⟨1, [2]⟩, ⟨2, []⟩] {2} 2 ∧
      ¬ ∃ i j : Nat, j < i ∧ (2 : Int) ∈ plan.levels.getD j [] ∧
        (1 : Int) ∈ plan.levels.getD i [] := by
  refine ⟨⟨[[1, 2]], [1, 2], [(1, [2]), (2, [])]⟩, rfl, rfl, ?_, ?_, ?_⟩
  · refine Resolvable.step ⟨1, [2]⟩ (by simp) ?_
    intro x hx hxp
    rw [List.mem_singleton] at hx
    subst hx
    exact absurd (by simp) hxp
  · exact Resolvable.step ⟨2, []⟩ (by simp) (fun x hx => absurd hx (List.not_mem_nil x))
  · rintro ⟨i, j, hji, h2, h1⟩
    match i, hji with
    | 0, hji => omega
    | k + 1, _ =>
      have hnil : ([[1, 2]] : List (List Int)).getD (k + 1) [] = [] := rfl
      rw [hnil] at h1
      exact absurd h1 (List.not_mem_nil 1)

end EpicExecutor
